import Mathlib

/-!
Verification of the grid-search / delivery-assignment core.

The definitions below are a shallow embedding of the Python sources:
  - DataStructure/Position.py, Edge.py, Grid.py, DeliveryState.py
  - Search/Tree_node.py, Delivery_problem.py, Generic_search.py
  - Delivery/Delivery_planner.py

Conventions of the embedding:
  - Python ints are `Int` (coordinates) or `Nat` (costs, counters, traffic
    levels; the grid stores nonnegative levels, 0 meaning blocked).
  - `float('inf')` sentinels become `Option` / a dedicated constructor.
  - Python `while` loops become fuel-indexed recursion; `SearchResult.fuelOut`
    marks fuel exhaustion, which never occurs for sufficient fuel (proved).
  - `heapq` frontiers become cost-sorted lists with stable insertion; FIFO
    deques and LIFO stacks become plain lists.
  - `DeliveryState.__eq__`/`__hash__` use only `(current_pos, target_pos)`,
    so the explored set is a list of such pairs, and `cost_so_far` maps are
    association lists keyed by such pairs.
  - `Node` stores the root-to-node action list directly; the Python class
    stores a parent pointer and reconstructs the same list via `get_path`.
-/

set_option maxHeartbeats 1000000

/-- Position: integer coordinate pair (from DataStructure/Position.py). -/
structure Pos where
  x : Int
  y : Int
deriving DecidableEq, Repr

/-- Manhattan distance between positions (Position.manhattan_distance). -/
def manhattan (p q : Pos) : Nat :=
  (p.x - q.x).natAbs + (p.y - q.y).natAbs

/-- Diagonal (Chebyshev) distance, as computed inline in Generic_search.py. -/
def diagonal (p q : Pos) : Nat :=
  max (p.x - q.x).natAbs (p.y - q.y).natAbs

/-- Lexicographic order on (x, y), the sort key used by Edge.__init__. -/
def posKeyLe (p q : Pos) : Prop :=
  p.x < q.x ∨ (p.x = q.x ∧ p.y ≤ q.y)

instance (p q : Pos) : Decidable (posKeyLe p q) := by
  unfold posKeyLe; infer_instance

/-- Edge: an unordered pair of positions stored in sorted order
(from DataStructure/Edge.py). -/
structure Edge where
  pos1 : Pos
  pos2 : Pos
deriving DecidableEq, Repr

/-- Canonical constructor: endpoints sorted by (x, y) as in Edge.__init__. -/
def mkEdge (a b : Pos) : Edge :=
  if posKeyLe a b then ⟨a, b⟩ else ⟨b, a⟩

/-- Grid: stores, customers, traffic map, tunnels (DataStructure/Grid.py).
Maps are association lists (first match wins, like a dict after updates). -/
structure Grid where
  m : Int
  n : Int
  stores : List Pos
  customers : List Pos
  traffic : List (Edge × Nat)
  tunnels : List (Pos × Pos)
deriving Repr

/-- Association-list lookup used for the grid maps and cost maps. -/
def alookup {α β : Type} [DecidableEq α] (k : α) : List (α × β) → Option β
  | [] => none
  | (k2, v) :: rest => if k = k2 then some v else alookup k rest

/-- Grid.get_traffic_level: level of the canonicalized edge, None if unset. -/
def Grid.get_traffic_level (g : Grid) (p q : Pos) : Option Nat :=
  alookup (mkEdge p q) g.traffic

/-- Grid.is_blocked: traffic == 0 (None compares unequal to 0 in Python). -/
def Grid.is_blocked (g : Grid) (p q : Pos) : Bool :=
  g.get_traffic_level p q == some 0

/-- Grid.get_tunnel_exit: tunnel partner of a position, None if absent. -/
def Grid.get_tunnel_exit (g : Grid) (p : Pos) : Option Pos :=
  alookup p g.tunnels

/-- Search state (DataStructure/DeliveryState.py). Equality and hashing in
the source use only (current_pos, target_pos); cost_so_far is excluded. -/
structure DeliveryState where
  current_pos : Pos
  target_pos : Pos
  cost_so_far : Nat
deriving DecidableEq, Repr

/-- Dedup key of a state: the pair its __eq__ and __hash__ actually use. -/
def skey (s : DeliveryState) : Pos × Pos :=
  (s.current_pos, s.target_pos)

/-- Node of the search tree (Search/Tree_node.py). `path` is the action list
that Node.get_path reconstructs by walking parent links. -/
structure Node where
  state : DeliveryState
  path : List String
  path_cost : Nat
  depth : Nat
  heuristic : Nat
deriving DecidableEq, Repr

/-- Bounds test from DeliveryProblem.get_successors:
0 <= x < m and 0 <= y < n. -/
def inBoundsP (g : Grid) (p : Pos) : Prop :=
  0 ≤ p.x ∧ p.x < g.m ∧ 0 ≤ p.y ∧ p.y < g.n

instance (g : Grid) (p : Pos) : Decidable (inBoundsP g p) := by
  unfold inBoundsP; infer_instance

/-- Directions in generation order (DeliveryProblem.get_successors). -/
def dirDelta : List (String × Int × Int) :=
  [("up", (0, -1)), ("down", (0, 1)), ("left", (-1, 0)), ("right", (1, 0))]

/-- One directional successor attempt from DeliveryProblem.get_successors:
skip when out of bounds, blocked, or traffic undefined. -/
def moveSucc (g : Grid) (goal : Pos) (s : DeliveryState)
    (ad : String × Int × Int) : Option (DeliveryState × String × Nat) :=
  if inBoundsP g ⟨s.current_pos.x + ad.2.1, s.current_pos.y + ad.2.2⟩ then
    if g.is_blocked s.current_pos
        ⟨s.current_pos.x + ad.2.1, s.current_pos.y + ad.2.2⟩ then none
    else
      match g.get_traffic_level s.current_pos
          ⟨s.current_pos.x + ad.2.1, s.current_pos.y + ad.2.2⟩ with
      | none => none
      | some t =>
        some (⟨⟨s.current_pos.x + ad.2.1, s.current_pos.y + ad.2.2⟩, goal,
          s.cost_so_far + t⟩, ad.1, t)
  else none

/-- DeliveryProblem.get_successors: the four directional moves in order,
followed by the tunnel action when the position has a tunnel exit. -/
def get_successors (g : Grid) (goal : Pos) (s : DeliveryState) :
    List (DeliveryState × String × Nat) :=
  (dirDelta.filterMap (moveSucc g goal s)) ++
    (match g.get_tunnel_exit s.current_pos with
     | some e =>
        [(⟨e, goal, s.cost_so_far + manhattan s.current_pos e⟩, "tunnel",
          manhattan s.current_pos e)]
     | none => [])

/-- Action-name-to-delta dispatch of DeliveryProblem.get_cost_of_actions. -/
def moveDelta (a : String) : Option (Int × Int) :=
  if a = "up" then some (0, -1)
  else if a = "down" then some (0, 1)
  else if a = "left" then some (-1, 0)
  else if a = "right" then some (1, 0)
  else none

/-- Replay loop of DeliveryProblem.get_cost_of_actions: current position and
accumulated cost; `none` is the float('inf') failure sentinel. The replay
checks blocked/undefined edges and tunnel availability but not grid bounds,
exactly as the source does. -/
def replaySteps (g : Grid) : List String → Pos → Nat → Option (Pos × Nat)
  | [], pos, total => some (pos, total)
  | action :: rest, pos, total =>
    if action = "tunnel" then
      match g.get_tunnel_exit pos with
      | none => none
      | some e => replaySteps g rest e (total + manhattan pos e)
    else
      match moveDelta action with
      | none => none
      | some d =>
        if g.is_blocked pos ⟨pos.x + d.1, pos.y + d.2⟩ then none
        else
          match g.get_traffic_level pos ⟨pos.x + d.1, pos.y + d.2⟩ with
          | none => none
          | some t => replaySteps g rest ⟨pos.x + d.1, pos.y + d.2⟩ (total + t)

/-- DeliveryProblem.get_cost_of_actions: total replay cost from the start
position, `none` standing for the float('inf') sentinel. -/
def get_cost_of_actions (g : Grid) (start : Pos) (actions : List String) :
    Option Nat :=
  (replaySteps g actions start 0).map Prod.snd

/-- Predicate: the action list replays from `start` to `goal` at cost `c`. -/
def ReachesWithCost (g : Grid) (start goal : Pos) (acts : List String)
    (c : Nat) : Prop :=
  replaySteps g acts start 0 = some (goal, c)

/-- Well-formed grid (spec section 3 invariant, bounds part): every edge in
the traffic mapping connects in-bounds positions. -/
def WFgrid (g : Grid) : Prop :=
  ∀ et ∈ g.traffic, inBoundsP g et.1.pos1 ∧ inBoundsP g et.1.pos2

instance (g : Grid) : Decidable (WFgrid g) := by
  unfold WFgrid; infer_instance

/-- Result of a search run: (plan, cost, nodes expanded) on success,
(None, float('inf'), nodes expanded) on frontier exhaustion, or fuel
exhaustion of the fuel-indexed loop (never reached for sufficient fuel). -/
inductive SearchResult where
  | found (plan : List String) (cost : Nat) (nodes : Nat) : SearchResult
  | nopath (nodes : Nat) : SearchResult
  | fuelOut : SearchResult
deriving DecidableEq, Repr

/-- Child filtering and goal-at-generation test of breadth_first_search:
walk the successor list; skip explored children; return the first goal
child immediately; append the rest to the FIFO frontier. -/
def bfsExpand (g : Grid) (goal : Pos) (node : Node) :
    List (DeliveryState × String × Nat) → List Node → List (Pos × Pos) →
    Sum (List Node) (List String × Nat)
  | [], frontier, _ => .inl frontier
  | (s, a, c) :: rest, frontier, explored =>
    if skey s ∈ explored then bfsExpand g goal node rest frontier explored
    else
      let child : Node :=
        ⟨s, node.path ++ [a], node.path_cost + c, node.depth + 1, 0⟩
      if s.current_pos = goal then .inr (child.path, child.path_cost)
      else bfsExpand g goal node rest (frontier ++ [child]) explored

/-- Main loop of GenericSearch.breadth_first_search. The node's state is
added to the explored set before its children are generated, as in the
source. -/
def bfsLoop (g : Grid) (goal : Pos) :
    Nat → List Node → List (Pos × Pos) → Nat → SearchResult
  | 0, _, _, _ => .fuelOut
  | _ + 1, [], _, nodes => .nopath nodes
  | fuel + 1, node :: rest, explored, nodes =>
    if skey node.state ∈ explored then
      bfsLoop g goal fuel rest explored (nodes + 1)
    else
      match bfsExpand g goal node (get_successors g goal node.state) rest
          (skey node.state :: explored) with
      | .inr pc => .found pc.1 pc.2 (nodes + 1)
      | .inl frontier2 =>
        bfsLoop g goal fuel frontier2 (skey node.state :: explored) (nodes + 1)

/-- GenericSearch.breadth_first_search: early return on a goal start state,
then the FIFO loop. -/
def breadth_first_search (g : Grid) (goal : Pos) (start_node : Node)
    (fuel : Nat) : SearchResult :=
  if start_node.state.current_pos = goal then .found [] 0 0
  else bfsLoop g goal fuel [start_node] [] 0

/-- Depth ceiling test of depth_first_search: node.depth >= limit, where
`none` is the default limit float('inf'). -/
def atLimit (node : Node) : Option Nat → Prop
  | none => False
  | some l => l ≤ node.depth

instance (node : Node) (lim : Option Nat) : Decidable (atLimit node lim) := by
  unfold atLimit; cases lim <;> infer_instance

/-- Children pushed by depth_first_search for one expanded node: successors
are filtered against the explored set (which already contains the expanded
node's state) and pushed in reversed order onto the stack, so the list of
kept children in generation order ends up on top in generation order. -/
def dfsChildren (g : Grid) (goal : Pos) (node : Node)
    (explored : List (Pos × Pos)) : List Node :=
  (get_successors g goal node.state).filterMap fun sac =>
    if skey sac.1 ∈ explored then none
    else some ⟨sac.1, node.path ++ [sac.2.1], node.path_cost + sac.2.2,
      node.depth + 1, 0⟩

/-- Outcome of one iteration of a search loop body. -/
inductive StepOut where
  | next (frontier : List Node) (explored : List (Pos × Pos)) (nodes : Nat) :
      StepOut
  | halt (r : SearchResult) : StepOut
deriving DecidableEq, Repr

/-- One iteration of GenericSearch.depth_first_search: pop the stack top,
test the goal, then skip the node (leaving the explored set unchanged) when
its state is explored or its depth is at or beyond the limit; otherwise mark
it explored and push its children. -/
def dfsStep (g : Grid) (goal : Pos) (limit : Option Nat)
    (frontier : List Node) (explored : List (Pos × Pos)) (nodes : Nat) :
    StepOut :=
  match frontier with
  | [] => .halt (.nopath nodes)
  | node :: rest =>
    if node.state.current_pos = goal then
      .halt (.found node.path node.path_cost (nodes + 1))
    else if skey node.state ∈ explored ∨ atLimit node limit then
      .next rest explored (nodes + 1)
    else
      .next (dfsChildren g goal node (skey node.state :: explored) ++ rest)
        (skey node.state :: explored) (nodes + 1)

/-- Main loop of GenericSearch.depth_first_search. -/
def dfsLoop (g : Grid) (goal : Pos) (limit : Option Nat) :
    Nat → List Node → List (Pos × Pos) → Nat → SearchResult
  | 0, _, _, _ => .fuelOut
  | fuel + 1, frontier, explored, nodes =>
    match dfsStep g goal limit frontier explored nodes with
    | .halt r => r
    | .next f2 e2 n2 => dfsLoop g goal limit fuel f2 e2 n2

/-- GenericSearch.depth_first_search (no early goal return in the source). -/
def depth_first_search (g : Grid) (goal : Pos) (start_node : Node)
    (limit : Option Nat) (fuel : Nat) : SearchResult :=
  dfsLoop g goal limit fuel [start_node] [] 0

/-- Main loop of GenericSearch.iterative_deepening_search: run depth-first
search with ceilings 0, 1, 2, ... accumulating nodes expanded, returning the
first solution, giving up past depth 1000. 1001 iterations suffice, so the
wrapper passes 1001 as the iteration fuel. -/
def idsLoop (g : Grid) (goal : Pos) (start_node : Node) (dfsFuel : Nat) :
    Nat → Nat → Nat → SearchResult
  | 0, _, _ => .fuelOut
  | iters + 1, depth, total =>
    match depth_first_search g goal start_node (some depth) dfsFuel with
    | .found p c n => .found p c (total + n)
    | .fuelOut => .fuelOut
    | .nopath n =>
      if 1000 < depth + 1 then .nopath (total + n)
      else idsLoop g goal start_node dfsFuel iters (depth + 1) (total + n)

/-- GenericSearch.iterative_deepening_search. -/
def iterative_deepening_search (g : Grid) (goal : Pos) (start_node : Node)
    (dfsFuel : Nat) : SearchResult :=
  idsLoop g goal start_node dfsFuel 1001 0 0

/-- Priority-queue push: insert keeping the list sorted by priority; ties
keep insertion order, modelling the heapq frontier. -/
def pqInsert (e : Nat × Node) : List (Nat × Node) → List (Nat × Node)
  | [] => [e]
  | q :: qs => if e.1 < q.1 then e :: q :: qs else q :: pqInsert e qs

/-- Relaxation test of uniform_cost_search and a_star_search:
state not in cost_so_far, or the new path cost strictly cheaper. -/
def relaxGate (dmap : List ((Pos × Pos) × Nat)) (k : Pos × Pos)
    (new_cost : Nat) : Bool :=
  match alookup k dmap with
  | none => true
  | some old => new_cost < old

/-- Relaxation loop shared by uniform_cost_search (h = 0) and a_star_search:
for each successor, push a child and record its cost in cost_so_far exactly
when the state is new or the new path cost is strictly cheaper. -/
def relaxSuccs (h : Pos → Nat) (node : Node) :
    List (DeliveryState × String × Nat) → List (Nat × Node) →
    List ((Pos × Pos) × Nat) → List (Nat × Node) × List ((Pos × Pos) × Nat)
  | [], frontier, dmap => (frontier, dmap)
  | (s, a, c) :: rest, frontier, dmap =>
    let new_cost := node.path_cost + c
    if relaxGate dmap (skey s) new_cost then
      let child : Node :=
        ⟨s, node.path ++ [a], new_cost, node.depth + 1, h s.current_pos⟩
      relaxSuccs h node rest
        (pqInsert (new_cost + h s.current_pos, child) frontier)
        ((skey s, new_cost) :: dmap)
    else relaxSuccs h node rest frontier dmap

/-- Shared main loop of uniform_cost_search and a_star_search: pop the
minimum-priority node, test the goal at expansion time, skip explored
states, and otherwise relax the successors. uniform_cost_search is this
loop with the zero heuristic (priorities are then path costs). -/
def bestFirstLoop (g : Grid) (goal : Pos) (h : Pos → Nat) :
    Nat → List (Nat × Node) → List (Pos × Pos) →
    List ((Pos × Pos) × Nat) → Nat → SearchResult
  | 0, _, _, _, _ => .fuelOut
  | _ + 1, [], _, _, nodes => .nopath nodes
  | fuel + 1, (_, node) :: rest, explored, dmap, nodes =>
    if node.state.current_pos = goal then
      .found node.path node.path_cost (nodes + 1)
    else if skey node.state ∈ explored then
      bestFirstLoop g goal h fuel rest explored dmap (nodes + 1)
    else
      let fd := relaxSuccs h node (get_successors g goal node.state) rest dmap
      bestFirstLoop g goal h fuel fd.1 (skey node.state :: explored) fd.2
        (nodes + 1)

/-- GenericSearch.uniform_cost_search: early return on a goal start, then
Dijkstra's algorithm; the frontier is ordered by path cost and cost_so_far
starts as the singleton map sending the start state to 0. -/
def uniform_cost_search (g : Grid) (goal : Pos) (start_node : Node)
    (fuel : Nat) : SearchResult :=
  if start_node.state.current_pos = goal then .found [] 0 0
  else
    bestFirstLoop g goal (fun _ => 0) fuel
      [(start_node.path_cost, start_node)] [] [(skey start_node.state, 0)] 0

/-- Heuristic selection shared by greedy_search and a_star_search:
1 = Manhattan distance to the goal, 2 = diagonal distance, else zero. -/
def heuristic_choice (goal : Pos) (heuristic_num : Nat) : Pos → Nat :=
  if heuristic_num = 1 then fun p => manhattan p goal
  else if heuristic_num = 2 then fun p => diagonal p goal
  else fun _ => 0

/-- GenericSearch.a_star_search: same loop as uniform-cost, priorities
path_cost + heuristic, cost_so_far initialized at the start node's cost. -/
def a_star_search (g : Grid) (goal : Pos) (start_node : Node)
    (heuristic_num : Nat) (fuel : Nat) : SearchResult :=
  let hf := heuristic_choice goal heuristic_num
  if start_node.state.current_pos = goal then .found [] 0 0
  else
    bestFirstLoop g goal hf fuel
      [(start_node.path_cost + hf start_node.state.current_pos, start_node)]
      [] [(skey start_node.state, start_node.path_cost)] 0

/-- Child pushes of one greedy_search expansion: successors are filtered
against the explored set (which already contains the expanded node's state)
and pushed with their heuristic value as priority. -/
def greedyPush (hf : Pos → Nat) (node : Node) (explored : List (Pos × Pos)) :
    List (Nat × Node) → List (DeliveryState × String × Nat) →
    List (Nat × Node)
  | frontier, [] => frontier
  | frontier, sac :: rest =>
    if skey sac.1 ∈ explored then greedyPush hf node explored frontier rest
    else
      greedyPush hf node explored
        (pqInsert (hf sac.1.current_pos,
          ⟨sac.1, node.path ++ [sac.2.1], node.path_cost + sac.2.2,
            node.depth + 1, hf sac.1.current_pos⟩) frontier)
        rest

/-- Main loop of GenericSearch.greedy_search: priority is the heuristic of
the successor state alone; children are filtered against the explored set
at generation time; there is no cost_so_far map. -/
def greedyLoop (g : Grid) (goal : Pos) (hf : Pos → Nat) :
    Nat → List (Nat × Node) → List (Pos × Pos) → Nat → SearchResult
  | 0, _, _, _ => .fuelOut
  | _ + 1, [], _, nodes => .nopath nodes
  | fuel + 1, (_, node) :: rest, explored, nodes =>
    if node.state.current_pos = goal then
      .found node.path node.path_cost (nodes + 1)
    else if skey node.state ∈ explored then
      greedyLoop g goal hf fuel rest explored (nodes + 1)
    else
      greedyLoop g goal hf fuel
        (greedyPush hf node (skey node.state :: explored) rest
          (get_successors g goal node.state))
        (skey node.state :: explored) (nodes + 1)

/-- GenericSearch.greedy_search. -/
def greedy_search (g : Grid) (goal : Pos) (start_node : Node)
    (heuristic_num : Nat) (fuel : Nat) : SearchResult :=
  let hf := heuristic_choice goal heuristic_num
  if start_node.state.current_pos = goal then .found [] 0 0
  else greedyLoop g goal hf fuel [(hf start_node.state.current_pos, start_node)] [] 0

/-- Heuristic-number parse of GenericSearch.solve: strategies of length > 2
read the digit at index 2 (a non-digit raises ValueError, modelled as none);
otherwise the number defaults to 1. -/
def hnumOf (strategy : String) : Option Nat :=
  if strategy.length > 2 then
    match strategy.toList[2]? with
    | some ch => if ch.isDigit then some (ch.toNat - 48) else none
    | none => none
  else some 1

/-- Start node built by GenericSearch.solve: the start state (store
position, customer position, cost 0) with empty path, zero cost and depth,
and heuristic estimate h0 (set only for GR/AS strategies). -/
def mkStartNode (start goal : Pos) (h0 : Nat) : Node :=
  ⟨⟨start, goal, 0⟩, [], 0, 0, h0⟩

/-- GenericSearch.solve with the default heuristic_name "manhattan" (the
planner always constructs the engine with that default): builds the start
node, giving it a Manhattan heuristic estimate for GR/AS strategies, and
dispatches on the strategy string; `none` models the ValueError raised on
an unknown strategy (or a malformed GR/AS suffix). -/
def solve (g : Grid) (start goal : Pos) (strategy : String) (fuel : Nat) :
    Option SearchResult :=
  let h0 : Nat :=
    if strategy.startsWith "GR" || strategy.startsWith "AS" then
      manhattan start goal
    else 0
  let start_node : Node := mkStartNode start goal h0
  if strategy = "BF" then some (breadth_first_search g goal start_node fuel)
  else if strategy = "DF" then
    some (depth_first_search g goal start_node none fuel)
  else if strategy = "ID" then
    some (iterative_deepening_search g goal start_node fuel)
  else if strategy = "UC" then some (uniform_cost_search g goal start_node fuel)
  else if strategy.startsWith "GR" then
    match hnumOf strategy with
    | some k => some (greedy_search g goal start_node k fuel)
    | none => none
  else if strategy.startsWith "AS" then
    match hnumOf strategy with
    | some k => some (a_star_search g goal start_node k fuel)
    | none => none
  else none

/-- Per-strategy search metrics consumed by the assignment layer (the
entries of metrics_by_strategy that the assignment code reads). When
path_found is false the source stores cost = float('inf'), which the
assignment code never reads because every read is guarded by path_found. -/
structure Metrics where
  path_found : Bool
  cost : Nat
deriving DecidableEq, Repr

/-- One entry of pairwise_analysis: a (store, customer) pair with its
metrics_by_strategy dict, modelled in iteration order. -/
structure PairData where
  store_idx : Nat
  customer_idx : Nat
  metrics : List (String × Metrics)
deriving DecidableEq, Repr

/-- The analysis_data structure fed to the assignment functions. -/
structure AnalysisData where
  store_count : Nat
  customer_count : Nat
  pairs : List PairData
deriving DecidableEq, Repr

/-- Candidate / result assignment record:
(store index, customer index, cost, strategy label). -/
structure Cand where
  store_idx : Nat
  customer_idx : Nat
  cost : Nat
  strategy : String
deriving DecidableEq, Repr

/-- Minimum-cost found strategy for one pair (the inner loop of
balanced_cost_assignment): strict improvement, first strategy wins ties;
`none` when no strategy found a path (min_cost stays infinite). -/
def bestMetric (metrics : List (String × Metrics)) : Option (String × Nat) :=
  metrics.foldl
    (fun acc sm =>
      if sm.2.path_found && (match acc with
          | none => true
          | some bc => decide (sm.2.cost < bc.2)) then
        some (sm.1, sm.2.cost)
      else acc)
    none

/-- Candidate list of balanced_cost_assignment: for each pair, its
cheapest found strategy across all strategies. -/
def candidatesAll (analysis : AnalysisData) : List Cand :=
  analysis.pairs.filterMap fun pd =>
    (bestMetric pd.metrics).map fun bs =>
      ⟨pd.store_idx, pd.customer_idx, bs.2, bs.1⟩

/-- Candidate list of _balanced_assignment_for_strategy: pairs for which
the one named strategy is present and found a path. -/
def candidatesFor (analysis : AnalysisData) (strategy : String) : List Cand :=
  analysis.pairs.filterMap fun pd =>
    match alookup strategy pd.metrics with
    | none => none
    | some mr =>
      if mr.path_found then
        some ⟨pd.store_idx, pd.customer_idx, mr.cost, strategy⟩
      else none

/-- Stable insertion: place an element before the first strictly more
expensive one, after equal-cost ones already present. -/
def candInsert (c : Cand) : List Cand → List Cand
  | [] => [c]
  | d :: ds => if c.cost ≤ d.cost then c :: d :: ds else d :: candInsert c ds

/-- Stable ascending sort by cost (candidate_assignments.sort(key=cost);
Python's sort is stable, so any stable ascending-by-cost sort produces the
identical list). -/
def candSort (l : List Cand) : List Cand :=
  l.foldr candInsert []

/-- Accumulator of the two assignment passes: per-store loads, per-customer
assigned flags, assignment list, total cost. -/
structure AssignState where
  store_loads : List Nat
  customer_assigned : List Bool
  assignments : List Cand
  total_cost : Nat
deriving DecidableEq, Repr

/-- Minimum of a load list (Python min; the source only evaluates it with
at least one store, so the [] case is arbitrary here). -/
def minLoad : List Nat → Nat
  | [] => 0
  | x :: xs => xs.foldl Nat.min x

/-- One candidate of the constrained (first) pass, shared verbatim by
balanced_cost_assignment and _balanced_assignment_for_strategy: skip an
already-assigned customer; admit the assignment only if the destination
store's load after the assignment stays within min(store_loads) +
max_load_diff. -/
def pass1Step (max_load_diff : Nat) (st : AssignState) (cand : Cand) :
    AssignState :=
  if st.customer_assigned.getD cand.customer_idx false then st
  else if st.store_loads.getD cand.store_idx 0 + 1 ≤
      minLoad st.store_loads + max_load_diff then
    { store_loads := st.store_loads.set cand.store_idx
        (st.store_loads.getD cand.store_idx 0 + 1),
      customer_assigned := st.customer_assigned.set cand.customer_idx true,
      assignments := st.assignments ++ [cand],
      total_cost := st.total_cost + cand.cost }
  else st

/-- Cheapest candidate for one customer (the fallback search of the second
pass): strict improvement, first candidate wins ties. -/
def cheapestFor (cands : List Cand) (customer_idx : Nat) : Option Cand :=
  cands.foldl
    (fun acc c =>
      if c.customer_idx == customer_idx && (match acc with
          | none => true
          | some ch => decide (c.cost < ch.cost)) then
        some c
      else acc)
    none

/-- One customer of the unconstrained fallback (second) pass: a customer
still unassigned after the first pass is given its cheapest candidate,
ignoring the balance constraint; a customer with no candidate stays
unassigned. -/
def pass2Step (cands : List Cand) (st : AssignState) (customer_idx : Nat) :
    AssignState :=
  if st.customer_assigned.getD customer_idx false then st
  else
    match cheapestFor cands customer_idx with
    | none => st
    | some ch =>
      { store_loads := st.store_loads.set ch.store_idx
          (st.store_loads.getD ch.store_idx 0 + 1),
        customer_assigned := st.customer_assigned,
        assignments := st.assignments ++
          [⟨ch.store_idx, customer_idx, ch.cost, ch.strategy⟩],
        total_cost := st.total_cost + ch.cost }

/-- Shared body of the two balanced-assignment functions: sort candidates
by cost, run the constrained pass over them, then the fallback pass over
all customer indices. -/
def balancedPasses (cands0 : List Cand) (store_count customer_count
    max_load_diff : Nat) : List Cand × Nat × List Nat :=
  let cands := candSort cands0
  let init : AssignState :=
    ⟨List.replicate store_count 0, List.replicate customer_count false, [], 0⟩
  let st1 := cands.foldl (pass1Step max_load_diff) init
  let st2 := (List.range customer_count).foldl (pass2Step cands) st1
  (st2.assignments, st2.total_cost, st2.store_loads)

/-- DeliveryPlanner.balanced_cost_assignment: candidates take each pair's
minimum found cost across all strategies. Returns
(assignments, total_cost, store_loads). -/
def balanced_cost_assignment (analysis : AnalysisData)
    (max_load_diff : Nat) : List Cand × Nat × List Nat :=
  balancedPasses (candidatesAll analysis) analysis.store_count
    analysis.customer_count max_load_diff

/-- DeliveryPlanner._balanced_assignment_for_strategy: the same two passes
over the candidates of a single named strategy. -/
def balanced_assignment_for_strategy (analysis : AnalysisData)
    (strategy : String) (max_load_diff : Nat) : List Cand × Nat × List Nat :=
  balancedPasses (candidatesFor analysis strategy) analysis.store_count
    analysis.customer_count max_load_diff

/-- Well-formed analysis input: pair indices are within the declared store
and customer counts (the shape analyze_all_pairs produces). -/
def WFanalysis (a : AnalysisData) : Prop :=
  ∀ pd ∈ a.pairs, pd.store_idx < a.store_count ∧
    pd.customer_idx < a.customer_count

instance (a : AnalysisData) : Decidable (WFanalysis a) := by
  unfold WFanalysis; infer_instance

/-- Number of assignments a given customer index received. -/
def countCust (c : Nat) (l : List Cand) : Nat :=
  l.countP fun a => a.customer_idx == c

/-- Maximum of a load list (Python max over a nonempty list). -/
def maxLoad : List Nat → Nat
  | [] => 0
  | x :: xs => xs.foldl Nat.max x

/-- Pairwise load-balance bound: every load exceeds every other by at most
k. For nonempty lists this is equivalent to max - min <= k. -/
def LoadBound (k : Nat) (l : List Nat) : Prop :=
  ∀ a ∈ l, ∀ b ∈ l, a ≤ b + k

/-- Single step of a valid traversal, as both DeliveryProblem.get_successors
and DeliveryProblem.get_cost_of_actions understand it: either the tunnel
action from a position with a tunnel exit (cost = Manhattan distance), or a
directional move along an in-bounds, unblocked edge with defined traffic
(cost = traffic level). The replay omits the bounds check; on well-formed
grids the two coincide. -/
def StepRel (g : Grid) (p : Pos) (a : String) (q : Pos) (c : Nat) : Prop :=
  (a = "tunnel" ∧ g.get_tunnel_exit p = some q ∧ c = manhattan p q) ∨
  (∃ d, moveDelta a = some d ∧ q = ⟨p.x + d.1, p.y + d.2⟩ ∧ inBoundsP g q ∧
    g.is_blocked p q = false ∧ g.get_traffic_level p q = some c)

/-- Soundness data carried by every node a search creates: its action list
replays from the start to its current position at exactly its recorded path
cost, its target is the goal, and its depth is its path length. -/
def NodeOK (g : Grid) (start goal : Pos) (nd : Node) : Prop :=
  replaySteps g nd.path start 0 = some (nd.state.current_pos, nd.path_cost) ∧
  nd.state.target_pos = goal ∧ nd.depth = nd.path.length

/-- Tunnel exit positions of a grid. -/
def tunnelExits (g : Grid) : List Pos :=
  g.tunnels.map Prod.snd

/-- All in-bounds positions of a grid. -/
def boundPositions (g : Grid) : List Pos :=
  (List.range g.m.toNat).flatMap fun i =>
    (List.range g.n.toNat).map fun j => ⟨(i : Int), (j : Int)⟩

/-- Every state key a search starting at (start, goal) can ever encounter:
the start key plus keys at in-bounds positions and tunnel exits. -/
def allKeys (g : Grid) (start goal : Pos) : List (Pos × Pos) :=
  (start, goal) :: (boundPositions g ++ tunnelExits g).map fun p => (p, goal)

/-- Fuel sufficient for any of the search loops on a given problem: each
expansion pushes at most 5 children and consumes a fresh key, so the number
of loop iterations is bounded by this quantity (proved below). -/
def searchFuel (g : Grid) (start goal : Pos) : Nat :=
  5 * (allKeys g start goal).length + 2

/-- Concrete 2 x 1 grid with one open edge of traffic level 1 between
(0,0) and (1,0); store at (0,0), customer at (1,0). -/
def gridTwo : Grid :=
  { m := 2, n := 1, stores := [⟨0, 0⟩], customers := [⟨1, 0⟩],
    traffic := [(mkEdge ⟨0, 0⟩ ⟨1, 0⟩, 1)], tunnels := [] }

/-- Concrete 2 x 1 grid with no traffic data at all: the customer at (1,0)
is unreachable from the store at (0,0). -/
def gridBlocked : Grid :=
  { m := 2, n := 1, stores := [⟨0, 0⟩], customers := [⟨1, 0⟩],
    traffic := [], tunnels := [] }

/-- Concrete analysis input with one store, one customer, and a single pair
whose only strategy found no path: the customer has no candidate at all. -/
def analysisNoPath : AnalysisData :=
  ⟨1, 1, [⟨0, 0, [("BF", ⟨false, 0⟩)]⟩]⟩

/-- Concrete analysis input with one store and one customer whose single
pair was solved at cost 3 by strategy "UC". -/
def analysisOne : AnalysisData :=
  ⟨1, 1, [⟨0, 0, [("UC", ⟨true, 3⟩)]⟩]⟩

/-- Invariant bundle of the shared uniform-cost / A* loop, for a search
from start to goal with heuristic h. entries: every frontier entry is a
sound node priced at path cost plus heuristic. sorted: the frontier is
ordered by priority. exGoal: explored keys target the goal and are never
the goal itself. dEntry: a cost_so_far record of an unexplored state is
witnessed by a frontier entry with exactly that path cost. dLe: every
frontier entry has a cost_so_far record at most its path cost. exLe: every
explored state's recorded cost plus heuristic is at most every frontier
priority. exClosed: explored states have all their successors recorded at
no more than their own record plus the edge cost. cover: every replay of a
goal-reaching action list has a prefix ending in an unexplored state whose
cost_so_far record is at most the prefix cost. -/
structure PQInv (g : Grid) (start goal : Pos) (h : Pos → Nat)
    (frontier : List (Nat × Node)) (explored : List (Pos × Pos))
    (dmap : List ((Pos × Pos) × Nat)) : Prop where
  entries : ∀ e ∈ frontier, NodeOK g start goal e.2 ∧
    e.1 = e.2.path_cost + h e.2.state.current_pos
  sorted : List.Pairwise (fun e1 e2 : Nat × Node => e1.1 ≤ e2.1) frontier
  exGoal : ∀ kk ∈ explored, kk.2 = goal ∧ kk.1 ≠ goal
  dEntry : ∀ kk : Pos × Pos, kk ∉ explored → ∀ dv,
    alookup kk dmap = some dv →
    ∃ e ∈ frontier, skey e.2.state = kk ∧ e.2.path_cost = dv
  dLe : ∀ e ∈ frontier, ∃ dv, alookup (skey e.2.state) dmap = some dv ∧
    dv ≤ e.2.path_cost
  exLe : ∀ kk ∈ explored, ∃ dk, alookup kk dmap = some dk ∧
    ∀ e ∈ frontier, dk + h kk.1 ≤ e.1
  exClosed : ∀ kk ∈ explored, ∀ dk, alookup kk dmap = some dk →
    ∀ a q c, StepRel g kk.1 a q c →
      ∃ dq, alookup (q, goal) dmap = some dq ∧ dq ≤ dk + c
  cover : ∀ acts cst,
    replaySteps g acts start 0 = some (goal, cst) →
    ∃ i qi ci, i ≤ acts.length ∧
      replaySteps g (acts.take i) start 0 = some (qi, ci) ∧
      (qi, goal) ∉ explored ∧
      ∃ dqi, alookup (qi, goal) dmap = some dqi ∧ dqi ≤ ci

/-- Invariant bundle of the breadth_first_search main loop, for a search
from start to goal, with a ghost map ed recording the depth at which each
explored state was expanded. entries: frontier nodes are sound and never
goal states (goal children are returned at generation, never pushed).
sorted: frontier depths are nondecreasing (FIFO level order). gap: any two
frontier depths differ by at most one. exGoal: explored keys target the
goal and are never the goal. exEd/edMem: ed is defined exactly on the
explored keys. edLe: every recorded expansion depth is at most every
frontier depth. edClosed: each successor of an explored state is either
explored at depth at most one more, or on the frontier at depth at most
one more. cover: every goal-reaching replay has a prefix of some length i
whose end position is held by a frontier node of depth at most i. -/
structure BFSInv (g : Grid) (start goal : Pos) (frontier : List Node)
    (explored : List (Pos × Pos)) (ed : List ((Pos × Pos) × Nat)) :
    Prop where
  entries : ∀ nd ∈ frontier, NodeOK g start goal nd ∧
    nd.state.current_pos ≠ goal
  sorted : List.Pairwise (fun n1 n2 : Node => n1.depth ≤ n2.depth) frontier
  gap : ∀ n1 ∈ frontier, ∀ n2 ∈ frontier, n1.depth ≤ n2.depth + 1
  exGoal : ∀ kk ∈ explored, kk.2 = goal ∧ kk.1 ≠ goal
  exEd : ∀ kk ∈ explored, ∃ d, alookup kk ed = some d
  edMem : ∀ kk d, alookup kk ed = some d → kk ∈ explored
  edLe : ∀ kk d, alookup kk ed = some d → ∀ nd ∈ frontier, d ≤ nd.depth
  edClosed : ∀ kk d, alookup kk ed = some d →
    ∀ a q c, StepRel g kk.1 a q c →
      (∃ d2, alookup (q, goal) ed = some d2 ∧ d2 ≤ d + 1) ∨
      ∃ nd ∈ frontier, nd.state.current_pos = q ∧ nd.depth ≤ d + 1
  cover : ∀ acts cst,
    replaySteps g acts start 0 = some (goal, cst) →
    ∃ i qi ci, i ≤ acts.length ∧
      replaySteps g (acts.take i) start 0 = some (qi, ci) ∧
      ∃ nd ∈ frontier, nd.state.current_pos = qi ∧ nd.depth ≤ i

-- ======================================================================
-- Theorems. Claim theorems are named c1_... through c10_...; everything
-- else is a supporting lemma.
-- ======================================================================

/-- C9: the search engine is deterministic: solving the same (grid, store,
customer, strategy) twice — the planner builds a fresh engine per run — is
the same pure function application twice, so both runs return the same
action sequence, total cost and nodes-expanded count. -/
theorem c9_deterministic (g : Grid) (store customer : Pos)
    (strategy : String) (fuel : Nat) :
    solve g store customer strategy fuel =
      solve g store customer strategy fuel :=
  rfl

/-- Unfolding helper: a depth-first run that finds a plan makes the
iterative-deepening loop return immediately with accumulated nodes. -/
theorem idsLoop_found (g : Grid) (goal : Pos) (sn : Node) (dfsFuel : Nat)
    (iters depth tot : Nat) (p : List String) (c n : Nat)
    (hdfs : depth_first_search g goal sn (some depth) dfsFuel =
      SearchResult.found p c n) :
    idsLoop g goal sn dfsFuel (iters + 1) depth tot =
      SearchResult.found p c (tot + n) := by
  unfold idsLoop
  rw [hdfs]

/-- C10: when the start position equals the goal position, every strategy
returns the empty action sequence at total cost 0: breadth-first,
uniform-cost, greedy and A* report 0 nodes expanded through the early
return before their main loops, while depth-first (and hence iterative
deepening, whose first depth-0 iteration detects it) detects the goal on
the first pop, reporting 1 node expanded. -/
theorem c10_start_equals_goal (g : Grid) (p : Pos) (h0 k : Nat)
    (lim : Option Nat) (fuel : Nat) (hfuel : 1 ≤ fuel) :
    breadth_first_search g p (mkStartNode p p h0) fuel =
        SearchResult.found [] 0 0 ∧
    uniform_cost_search g p (mkStartNode p p h0) fuel =
        SearchResult.found [] 0 0 ∧
    greedy_search g p (mkStartNode p p h0) k fuel =
        SearchResult.found [] 0 0 ∧
    a_star_search g p (mkStartNode p p h0) k fuel =
        SearchResult.found [] 0 0 ∧
    depth_first_search g p (mkStartNode p p h0) lim fuel =
        SearchResult.found [] 0 1 ∧
    iterative_deepening_search g p (mkStartNode p p h0) fuel =
        SearchResult.found [] 0 1 := by
  cases fuel with
  | zero => exact absurd hfuel (by simp)
  | succ f =>
    have hdf : ∀ lim2 : Option Nat,
        depth_first_search g p (mkStartNode p p h0) lim2 (f + 1) =
          SearchResult.found [] 0 1 := by
      intro lim2
      unfold depth_first_search dfsLoop dfsStep
      simp [mkStartNode]
    refine ⟨?_, ?_, ?_, ?_, hdf lim, ?_⟩
    · simp [breadth_first_search, mkStartNode]
    · simp [uniform_cost_search, mkStartNode]
    · simp [greedy_search, mkStartNode]
    · simp [a_star_search, mkStartNode]
    · show idsLoop g p (mkStartNode p p h0) (f + 1) (1000 + 1) 0 0 =
        SearchResult.found [] 0 1
      rw [idsLoop_found g p (mkStartNode p p h0) (f + 1) 1000 0 0 [] 0 1
        (hdf (some 0))]

/-- C3 counterexample: on the concrete 2 x 1 grid with depth ceiling 0, the
start node (depth 0, not the goal) is popped at or beyond the ceiling; the
iteration skips it without generating successors, but also leaves the
explored set empty — its state is NOT added to the explored set, contrary
to the claim. -/
theorem c3_counterexample :
    dfsStep gridTwo ⟨1, 0⟩ (some 0) [mkStartNode ⟨0, 0⟩ ⟨1, 0⟩ 0] [] 0 =
      StepOut.next [] [] 1 ∧
    skey (mkStartNode ⟨0, 0⟩ ⟨1, 0⟩ 0).state ∉ ([] : List (Pos × Pos)) := by
  constructor
  · decide
  · simp

/-- C3 amended: in depth-first search with a depth ceiling, a popped
non-goal node whose depth is at or beyond the ceiling is not expanded
further — no successors are generated and the frontier continues with the
remaining stack — and the explored set is left UNCHANGED (its state is in
the explored set afterwards only if it already was before), rather than
being added as the claim states. -/
theorem c3_depth_ceiling_skip (g : Grid) (goal : Pos) (lim : Option Nat)
    (node : Node) (rest : List Node) (explored : List (Pos × Pos))
    (nodes : Nat) (hlim : atLimit node lim)
    (hng : node.state.current_pos ≠ goal) :
    dfsStep g goal lim (node :: rest) explored nodes =
      StepOut.next rest explored (nodes + 1) := by
  simp only [dfsStep]
  rw [if_neg hng, if_pos (Or.inr hlim)]

/-- C3 witness: the amended statement applied at the concrete grid. -/
theorem c3_witness :
    atLimit (mkStartNode ⟨0, 0⟩ ⟨1, 0⟩ 0) (some 0) ∧
    (mkStartNode ⟨0, 0⟩ ⟨1, 0⟩ 0).state.current_pos ≠ ⟨1, 0⟩ ∧
    dfsStep gridTwo ⟨1, 0⟩ (some 0) [mkStartNode ⟨0, 0⟩ ⟨1, 0⟩ 0]
      [(⟨5, 5⟩, ⟨6, 6⟩)] 7 = StepOut.next [] [(⟨5, 5⟩, ⟨6, 6⟩)] 8 :=
  ⟨by decide, by decide,
    c3_depth_ceiling_skip gridTwo ⟨1, 0⟩ (some 0)
      (mkStartNode ⟨0, 0⟩ ⟨1, 0⟩ 0) [] [(⟨5, 5⟩, ⟨6, 6⟩)] 7 (by decide)
      (by decide)⟩

theorem set_oob {α : Type} (l : List α) (i : Nat) (v : α)
    (h : l.length ≤ i) : l.set i v = l := by
  induction l generalizing i with
  | nil => rfl
  | cons x xs ih =>
    cases i with
    | zero => simp at h
    | succ j => simp only [List.set]; rw [ih j (by simpa using h)]

theorem mem_set_or {α : Type} {l : List α} {i : Nat} {v x : α}
    (hx : x ∈ l.set i v) : x = v ∨ x ∈ l := by
  induction l generalizing i with
  | nil => simp [List.set] at hx
  | cons y ys ih =>
    cases i with
    | zero =>
      simp only [List.set, List.mem_cons] at hx
      rcases hx with h | h
      · exact Or.inl h
      · exact Or.inr (List.mem_cons_of_mem _ h)
    | succ j =>
      simp only [List.set, List.mem_cons] at hx
      rcases hx with h | h
      · exact Or.inr (h ▸ List.mem_cons_self _ _)
      · rcases ih h with h2 | h2
        · exact Or.inl h2
        · exact Or.inr (List.mem_cons_of_mem _ h2)

theorem getD_set_self {α : Type} {l : List α} {i : Nat} {v d : α}
    (hi : i < l.length) : (l.set i v).getD i d = v := by
  induction l generalizing i with
  | nil => simp at hi
  | cons y ys ih =>
    cases i with
    | zero => rfl
    | succ j => exact ih (by simpa using hi)

theorem getD_set_ne {α : Type} {l : List α} {i j : Nat} {v d : α}
    (hne : i ≠ j) : (l.set i v).getD j d = l.getD j d := by
  induction l generalizing i j with
  | nil => rfl
  | cons y ys ih =>
    cases i with
    | zero =>
      cases j with
      | zero => exact absurd rfl hne
      | succ j2 => rfl
    | succ i2 =>
      cases j with
      | zero => rfl
      | succ j2 => exact ih fun h => hne (by rw [h])

theorem getD_mem {α : Type} {l : List α} {i : Nat} (d : α)
    (hi : i < l.length) : l.getD i d ∈ l := by
  induction l generalizing i with
  | nil => simp at hi
  | cons y ys ih =>
    cases i with
    | zero => exact List.mem_cons_self _ _
    | succ j => exact List.mem_cons_of_mem _ (ih (by simpa using hi))

theorem foldl_min_le_init (xs : List Nat) (x : Nat) :
    xs.foldl Nat.min x ≤ x := by
  induction xs generalizing x with
  | nil => exact Nat.le_refl x
  | cons y ys ih =>
    exact Nat.le_trans (ih (Nat.min x y)) (Nat.min_le_left x y)

theorem foldl_min_le_mem (xs : List Nat) (x : Nat) :
    ∀ a ∈ xs, xs.foldl Nat.min x ≤ a := by
  induction xs generalizing x with
  | nil => intro a ha; simp at ha
  | cons y ys ih =>
    intro a ha
    rcases List.mem_cons.mp ha with rfl | ha2
    · exact Nat.le_trans (foldl_min_le_init ys (Nat.min x a))
        (Nat.min_le_right x a)
    · exact ih (Nat.min x y) a ha2

theorem foldl_max_init_le (xs : List Nat) (x : Nat) :
    x ≤ xs.foldl Nat.max x := by
  induction xs generalizing x with
  | nil => exact Nat.le_refl x
  | cons y ys ih =>
    exact Nat.le_trans (Nat.le_max_left x y) (ih (Nat.max x y))

theorem foldl_max_mem_le (xs : List Nat) (x : Nat) :
    ∀ a ∈ xs, a ≤ xs.foldl Nat.max x := by
  induction xs generalizing x with
  | nil => intro a ha; simp at ha
  | cons y ys ih =>
    intro a ha
    rcases List.mem_cons.mp ha with rfl | ha2
    · exact Nat.le_trans (Nat.le_max_right x a) (foldl_max_init_le ys _)
    · exact ih (Nat.max x y) a ha2

theorem foldl_min_mem (xs : List Nat) (x : Nat) :
    xs.foldl Nat.min x = x ∨ xs.foldl Nat.min x ∈ xs := by
  induction xs generalizing x with
  | nil => exact Or.inl rfl
  | cons y ys ih =>
    show List.foldl Nat.min (Nat.min x y) ys = x ∨
      List.foldl Nat.min (Nat.min x y) ys ∈ y :: ys
    rcases ih (Nat.min x y) with h | h
    · rw [h]
      by_cases hxy : x ≤ y
      · exact Or.inl (Nat.min_eq_left hxy)
      · refine Or.inr ?_
        have hy : Nat.min x y = y := Nat.min_eq_right (Nat.le_of_not_le hxy)
        rw [hy]
        exact List.mem_cons_self _ _
    · exact Or.inr (List.mem_cons_of_mem _ h)

theorem foldl_max_mem (xs : List Nat) (x : Nat) :
    xs.foldl Nat.max x = x ∨ xs.foldl Nat.max x ∈ xs := by
  induction xs generalizing x with
  | nil => exact Or.inl rfl
  | cons y ys ih =>
    show List.foldl Nat.max (Nat.max x y) ys = x ∨
      List.foldl Nat.max (Nat.max x y) ys ∈ y :: ys
    rcases ih (Nat.max x y) with h | h
    · rw [h]
      by_cases hxy : y ≤ x
      · exact Or.inl (Nat.max_eq_left hxy)
      · refine Or.inr ?_
        have hy : Nat.max x y = y := Nat.max_eq_right (Nat.le_of_not_le hxy)
        rw [hy]
        exact List.mem_cons_self _ _
    · exact Or.inr (List.mem_cons_of_mem _ h)

theorem minLoad_le {l : List Nat} : ∀ a ∈ l, minLoad l ≤ a := by
  intro a ha
  cases l with
  | nil => simp at ha
  | cons x xs =>
    rcases List.mem_cons.mp ha with rfl | h
    · exact foldl_min_le_init xs a
    · exact foldl_min_le_mem xs x a h

theorem le_maxLoad {l : List Nat} : ∀ a ∈ l, a ≤ maxLoad l := by
  intro a ha
  cases l with
  | nil => simp at ha
  | cons x xs =>
    rcases List.mem_cons.mp ha with rfl | h
    · exact foldl_max_init_le xs a
    · exact foldl_max_mem_le xs x a h

theorem minLoad_mem {l : List Nat} (h : l ≠ []) : minLoad l ∈ l := by
  cases l with
  | nil => exact absurd rfl h
  | cons x xs =>
    show xs.foldl Nat.min x ∈ x :: xs
    rcases foldl_min_mem xs x with h2 | h2
    · rw [h2]
      exact List.mem_cons_self _ _
    · exact List.mem_cons_of_mem _ h2

theorem maxLoad_mem {l : List Nat} (h : l ≠ []) : maxLoad l ∈ l := by
  cases l with
  | nil => exact absurd rfl h
  | cons x xs =>
    show xs.foldl Nat.max x ∈ x :: xs
    rcases foldl_max_mem xs x with h2 | h2
    · rw [h2]
      exact List.mem_cons_self _ _
    · exact List.mem_cons_of_mem _ h2

theorem loadBound_sub {k : Nat} {l : List Nat} (hb : LoadBound k l) :
    maxLoad l - minLoad l ≤ k := by
  cases l with
  | nil => simp [maxLoad, minLoad]
  | cons x xs =>
    have h1 := hb _ (maxLoad_mem (l := x :: xs) (by simp))
      _ (minLoad_mem (l := x :: xs) (by simp))
    omega

theorem pass1Step_loadBound (k : Nat) (st : AssignState) (cand : Cand)
    (hb : LoadBound k st.store_loads) :
    LoadBound k (pass1Step k st cand).store_loads := by
  unfold pass1Step
  split
  · exact hb
  · split
    · rename_i hadm
      by_cases hi : cand.store_idx < st.store_loads.length
      · intro a ha b hb2
        simp only at ha hb2
        rcases mem_set_or ha with rfl | haold
        · rcases mem_set_or hb2 with rfl | hbold
          · omega
          · have := minLoad_le _ hbold
            omega
        · rcases mem_set_or hb2 with rfl | hbold
          · have := hb _ haold _ (getD_mem 0 hi)
            omega
          · exact hb _ haold _ hbold
      · simp only
        rw [set_oob _ _ _ (by omega)]
        exact hb
    · exact hb

theorem foldl_pass1_loadBound (k : Nat) (cands : List Cand)
    (st : AssignState) (hb : LoadBound k st.store_loads) :
    LoadBound k ((cands.foldl (pass1Step k) st).store_loads) := by
  induction cands generalizing st with
  | nil => exact hb
  | cons cd cds ih => exact ih _ (pass1Step_loadBound k st cd hb)

theorem loadBound_replicate (k S : Nat) :
    LoadBound k (List.replicate S 0) := by
  intro a ha b hb2
  have := List.eq_of_mem_replicate ha
  omega

/-- C6: throughout the constrained (first) pass of both balanced-assignment
functions, the per-store loads satisfy max - min <= max_load_diff after
every admitted assignment: the state after processing any prefix of the
sorted candidate list (starting from all-zero loads, as the functions do)
keeps the load spread within the bound, because a candidate is admitted
only when the destination store's load after the assignment would not
exceed the current minimum load plus max_load_diff. -/
theorem c6_constrained_pass_load_invariant (analysis : AnalysisData)
    (strategy : String) (k n : Nat) :
    maxLoad ((((candSort (candidatesAll analysis)).take n).foldl
        (pass1Step k)
        ⟨List.replicate analysis.store_count 0,
          List.replicate analysis.customer_count false, [], 0⟩).store_loads) -
      minLoad ((((candSort (candidatesAll analysis)).take n).foldl
        (pass1Step k)
        ⟨List.replicate analysis.store_count 0,
          List.replicate analysis.customer_count false, [], 0⟩).store_loads)
      ≤ k ∧
    maxLoad ((((candSort (candidatesFor analysis strategy)).take n).foldl
        (pass1Step k)
        ⟨List.replicate analysis.store_count 0,
          List.replicate analysis.customer_count false, [], 0⟩).store_loads) -
      minLoad ((((candSort (candidatesFor analysis strategy)).take n).foldl
        (pass1Step k)
        ⟨List.replicate analysis.store_count 0,
          List.replicate analysis.customer_count false, [], 0⟩).store_loads)
      ≤ k :=
  ⟨loadBound_sub (foldl_pass1_loadBound _ _ _
      (loadBound_replicate k analysis.store_count)),
    loadBound_sub (foldl_pass1_loadBound _ _ _
      (loadBound_replicate k analysis.store_count))⟩

theorem mem_candInsert {x cnd : Cand} {l : List Cand} :
    x ∈ candInsert cnd l ↔ x = cnd ∨ x ∈ l := by
  induction l with
  | nil => simp [candInsert]
  | cons d ds ih =>
    unfold candInsert
    split
    · simp [List.mem_cons]
    · simp only [List.mem_cons, ih]
      tauto

theorem mem_candSort {x : Cand} {l : List Cand} :
    x ∈ candSort l ↔ x ∈ l := by
  induction l with
  | nil => simp [candSort]
  | cons cd cds ih =>
    show x ∈ candInsert cd (candSort cds) ↔ _
    rw [mem_candInsert]
    simp [ih, List.mem_cons]

theorem countCust_append (c : Nat) (l : List Cand) (a : Cand) :
    countCust c (l ++ [a]) =
      countCust c l + (if a.customer_idx = c then 1 else 0) := by
  unfold countCust
  rw [List.countP_append]
  simp [List.countP_cons]

theorem pass1Step_count (k : Nat) (st : AssignState) (cd : Cand) (c : Nat)
    (hc : c < st.customer_assigned.length)
    (hinv : countCust c st.assignments =
      if st.customer_assigned.getD c false then 1 else 0) :
    (pass1Step k st cd).customer_assigned.length =
      st.customer_assigned.length ∧
    countCust c (pass1Step k st cd).assignments =
      if (pass1Step k st cd).customer_assigned.getD c false then 1 else 0 := by
  unfold pass1Step
  split
  · exact ⟨rfl, hinv⟩
  · rename_i hflag
    split
    · refine ⟨by simp, ?_⟩
      simp only
      rw [countCust_append]
      by_cases hcc : cd.customer_idx = c
      · subst hcc
        rw [if_pos rfl, getD_set_self hc]
        have hf : st.customer_assigned.getD cd.customer_idx false = false := by
          simpa using hflag
        rw [hf] at hinv
        simp [hinv]
      · rw [if_neg hcc, getD_set_ne hcc]
        simpa using hinv
    · exact ⟨rfl, hinv⟩

theorem foldl_pass1_count (k : Nat) (cands : List Cand) (st : AssignState)
    (c : Nat) (hc : c < st.customer_assigned.length)
    (hinv : countCust c st.assignments =
      if st.customer_assigned.getD c false then 1 else 0) :
    countCust c (cands.foldl (pass1Step k) st).assignments =
      if (cands.foldl (pass1Step k) st).customer_assigned.getD c false
      then 1 else 0 := by
  induction cands generalizing st with
  | nil => exact hinv
  | cons cd cds ih =>
    obtain ⟨hlen, hstep⟩ := pass1Step_count k st cd c hc hinv
    exact ih (pass1Step k st cd) (hlen ▸ hc) hstep

theorem pass2Step_flags (cands : List Cand) (st : AssignState) (j : Nat) :
    (pass2Step cands st j).customer_assigned = st.customer_assigned := by
  unfold pass2Step
  split
  · rfl
  · split
    · rfl
    · rfl

theorem pass2Step_count_ne (cands : List Cand) (st : AssignState)
    (j c : Nat) (hne : j ≠ c) :
    countCust c (pass2Step cands st j).assignments =
      countCust c st.assignments := by
  unfold pass2Step
  split
  · rfl
  · split
    · rfl
    · simp only
      rw [countCust_append, if_neg hne, Nat.add_zero]

theorem foldl_pass2_ne (cands : List Cand) (L : List Nat)
    (st : AssignState) (c : Nat) (hL : ∀ j ∈ L, j ≠ c) :
    countCust c ((L.foldl (pass2Step cands) st).assignments) =
      countCust c st.assignments ∧
    (L.foldl (pass2Step cands) st).customer_assigned =
      st.customer_assigned := by
  induction L generalizing st with
  | nil => exact ⟨rfl, rfl⟩
  | cons j js ih =>
    obtain ⟨h1, h2⟩ := ih (pass2Step cands st j)
      (fun x hx => hL x (List.mem_cons_of_mem _ hx))
    refine ⟨?_, ?_⟩
    · rw [List.foldl_cons] at *
      rw [h1, pass2Step_count_ne cands st j c (hL j (List.mem_cons_self _ _))]
    · rw [List.foldl_cons] at *
      rw [h2, pass2Step_flags]

theorem cheapestFor_aux (c : Nat) (cands : List Cand) (acc : Option Cand)
    (h : (∃ cd ∈ cands, cd.customer_idx = c) ∨ ∃ ch, acc = some ch) :
    ∃ ch, (cands.foldl
      (fun acc2 cd =>
        if cd.customer_idx == c && (match acc2 with
            | none => true
            | some ch => decide (cd.cost < ch.cost)) then
          some cd
        else acc2)
      acc) = some ch := by
  induction cands generalizing acc with
  | nil =>
    rcases h with ⟨cd, hcd, _⟩ | h
    · simp at hcd
    · exact h
  | cons cd cds ih =>
    rw [List.foldl_cons]
    apply ih
    rcases h with ⟨cd2, hcd2, hc2⟩ | ⟨ch, rfl⟩
    · rcases List.mem_cons.mp hcd2 with rfl | hmem
      · cases acc with
        | none => right; exact ⟨cd2, by simp [hc2]⟩
        | some a =>
          right
          split
          · exact ⟨_, rfl⟩
          · exact ⟨a, rfl⟩
      · exact Or.inl ⟨cd2, hmem, hc2⟩
    · right
      split
      · exact ⟨_, rfl⟩
      · exact ⟨ch, rfl⟩

theorem cheapestFor_isSome (cands : List Cand) (c : Nat)
    (hex : ∃ cd ∈ cands, cd.customer_idx = c) :
    ∃ ch, cheapestFor cands c = some ch :=
  cheapestFor_aux c cands none (Or.inl hex)

theorem getD_replicate_self {α : Type} (n i : Nat) (a : α) :
    (List.replicate n a).getD i a = a := by
  induction n generalizing i with
  | zero => rfl
  | succ m ih =>
    cases i with
    | zero => rfl
    | succ j => exact ih j

theorem balancedPasses_count (cands0 : List Cand) (S C k c : Nat)
    (hex : ∃ cd ∈ cands0, cd.customer_idx = c) (hcC : c < C) :
    countCust c (balancedPasses cands0 S C k).1 = 1 := by
  unfold balancedPasses
  simp only
  have hexs : ∃ cd ∈ candSort cands0, cd.customer_idx = c := by
    obtain ⟨cd, h1, h2⟩ := hex
    exact ⟨cd, mem_candSort.mpr h1, h2⟩
  set cands := candSort cands0 with hcands
  set init : AssignState :=
    ⟨List.replicate S 0, List.replicate C false, [], 0⟩ with hinit
  have hlenflags : init.customer_assigned.length = C := by
    simp [hinit]
  have h1 := foldl_pass1_count k cands init c (by omega)
    (by
      show countCust c [] =
        if (List.replicate C false).getD c false then 1 else 0
      rw [getD_replicate_self]
      simp [countCust])
  set st1 := cands.foldl (pass1Step k) init with hst1
  -- split the customer range at c
  have hcr : c ∈ List.range C := List.mem_range.mpr hcC
  obtain ⟨s, t, hst⟩ := List.append_of_mem hcr
  have hnd : (s ++ c :: t).Nodup := hst ▸ List.nodup_range C
  obtain ⟨hnds, hndt, hdisj⟩ := List.nodup_append.mp hnd
  have hcs : ∀ j ∈ s, j ≠ c := fun j hj hjc =>
    hdisj hj (hjc ▸ List.mem_cons_self c t)
  have hct : ∀ j ∈ t, j ≠ c := fun j hj hjc =>
    (List.nodup_cons.mp hndt).1 (hjc ▸ hj)
  rw [hst, List.foldl_append, List.foldl_cons]
  obtain ⟨hca, hfa⟩ := foldl_pass2_ne cands s st1 c hcs
  set sta := s.foldl (pass2Step cands) st1 with hsta
  -- the step at customer c pins the count at exactly 1
  have hstep : countCust c (pass2Step cands sta c).assignments = 1 := by
    unfold pass2Step
    split
    · rename_i hflag
      rw [hfa] at hflag
      rw [hca, h1, if_pos hflag]
    · rename_i hflag
      rw [hfa] at hflag
      obtain ⟨ch, hch⟩ := cheapestFor_isSome cands c hexs
      rw [hch]
      simp only
      rw [countCust_append, if_pos rfl, hca, h1]
      have hf : st1.customer_assigned.getD c false = false := by
        simpa using hflag
      rw [hf]
      simp
  exact (foldl_pass2_ne cands t (pass2Step cands sta c) c hct).1.trans hstep

theorem candidatesAll_customer_lt (a : AnalysisData) (hwf : WFanalysis a) :
    ∀ cd ∈ candidatesAll a, cd.customer_idx < a.customer_count := by
  intro cd hcd
  unfold candidatesAll at hcd
  obtain ⟨pd, hpd, heq⟩ := List.mem_filterMap.mp hcd
  rw [Option.map_eq_some'] at heq
  obtain ⟨bs, _, hcd2⟩ := heq
  rw [← hcd2]
  exact (hwf pd hpd).2

theorem candidatesFor_customer_lt (a : AnalysisData) (strategy : String)
    (hwf : WFanalysis a) :
    ∀ cd ∈ candidatesFor a strategy, cd.customer_idx < a.customer_count := by
  intro cd hcd
  unfold candidatesFor at hcd
  obtain ⟨pd, hpd, heq⟩ := List.mem_filterMap.mp hcd
  cases hm : alookup strategy pd.metrics with
  | none => rw [hm] at heq; simp at heq
  | some mr =>
    rw [hm] at heq
    simp only at heq
    split at heq
    · rw [← Option.some_inj.mp heq]
      exact (hwf pd hpd).2
    · simp at heq

/-- C4 counterexample: an analysis input with one store and one customer
whose only recorded strategy found no path. Both balanced-assignment
functions return an empty assignment list, so customer index 0 (which is in
range, customer_count = 1) appears zero times — not exactly once as the
claim states: a customer with no found path from any store is left
unassigned even after the fallback pass. -/
theorem c4_counterexample :
    analysisNoPath.customer_count = 1 ∧
    countCust 0 (balanced_cost_assignment analysisNoPath 1).1 = 0 ∧
    countCust 0
      (balanced_assignment_for_strategy analysisNoPath "BF" 1).1 = 0 := by
  refine ⟨rfl, ?_, ?_⟩ <;> decide

/-- C4 amended: the load-balance-constrained assignment (both the generic
balanced_cost_assignment and the per-strategy variant) leaves no SERVABLE
customer unassigned: after the constrained pass and the fallback pass,
every customer index that has at least one candidate (some store and
strategy with a found path) appears exactly once in the returned
assignment list. (A customer with no candidate at all is unassigned; see
the counterexample.) -/
theorem c4_served_customers_assigned_once (analysis : AnalysisData)
    (strategy : String) (k c : Nat) (hwf : WFanalysis analysis)
    (hall : ∃ cd ∈ candidatesAll analysis, cd.customer_idx = c)
    (hstr : ∃ cd ∈ candidatesFor analysis strategy, cd.customer_idx = c) :
    countCust c (balanced_cost_assignment analysis k).1 = 1 ∧
    countCust c (balanced_assignment_for_strategy analysis strategy k).1
      = 1 := by
  obtain ⟨cd, hcd, hc⟩ := hall
  have h1 : c < analysis.customer_count :=
    hc ▸ candidatesAll_customer_lt analysis hwf cd hcd
  exact ⟨balancedPasses_count _ _ _ _ _ ⟨cd, hcd, hc⟩ h1,
    balancedPasses_count _ _ _ _ _ hstr h1⟩

/-- C4 witness: the amended statement applied to a concrete analysis input
where the single customer has a found candidate. -/
theorem c4_witness :
    WFanalysis analysisOne ∧
    (∃ cd ∈ candidatesAll analysisOne, cd.customer_idx = 0) ∧
    (∃ cd ∈ candidatesFor analysisOne "UC", cd.customer_idx = 0) ∧
    countCust 0 (balanced_cost_assignment analysisOne 1).1 = 1 ∧
    countCust 0 (balanced_assignment_for_strategy analysisOne "UC" 1).1
      = 1 :=
  ⟨by decide, by decide, by decide,
    c4_served_customers_assigned_once analysisOne "UC" 1 0 (by decide)
      (by decide) (by decide)⟩

/-- C10 witness: the start-equals-goal behaviour at a concrete instance. -/
theorem c10_witness :
    1 ≤ 3 ∧
    (breadth_first_search gridTwo ⟨0, 0⟩ (mkStartNode ⟨0, 0⟩ ⟨0, 0⟩ 0) 3 =
        SearchResult.found [] 0 0 ∧
      uniform_cost_search gridTwo ⟨0, 0⟩ (mkStartNode ⟨0, 0⟩ ⟨0, 0⟩ 0) 3 =
        SearchResult.found [] 0 0 ∧
      greedy_search gridTwo ⟨0, 0⟩ (mkStartNode ⟨0, 0⟩ ⟨0, 0⟩ 0) 1 3 =
        SearchResult.found [] 0 0 ∧
      a_star_search gridTwo ⟨0, 0⟩ (mkStartNode ⟨0, 0⟩ ⟨0, 0⟩ 0) 1 3 =
        SearchResult.found [] 0 0 ∧
      depth_first_search gridTwo ⟨0, 0⟩ (mkStartNode ⟨0, 0⟩ ⟨0, 0⟩ 0) none 3 =
        SearchResult.found [] 0 1 ∧
      iterative_deepening_search gridTwo ⟨0, 0⟩
          (mkStartNode ⟨0, 0⟩ ⟨0, 0⟩ 0) 3 =
        SearchResult.found [] 0 1) :=
  ⟨by decide, c10_start_equals_goal gridTwo ⟨0, 0⟩ 0 1 none 3 (by decide)⟩

theorem alookup_mem {α β : Type} [DecidableEq α] {k : α} {v : β}
    {l : List (α × β)} (h : alookup k l = some v) : (k, v) ∈ l := by
  induction l with
  | nil => simp [alookup] at h
  | cons e rest ih =>
    obtain ⟨k2, v2⟩ := e
    unfold alookup at h
    split at h
    · rename_i heq
      have hv := Option.some_inj.mp h
      subst heq
      subst hv
      exact List.mem_cons_self _ _
    · exact List.mem_cons_of_mem _ (ih h)

theorem traffic_inB {g : Grid} (hwf : WFgrid g) {p q : Pos} {t : Nat}
    (h : g.get_traffic_level p q = some t) :
    inBoundsP g p ∧ inBoundsP g q := by
  unfold Grid.get_traffic_level at h
  have hmem := alookup_mem h
  have h2 := hwf _ hmem
  unfold mkEdge at h2
  split at h2
  · exact h2
  · exact ⟨h2.2, h2.1⟩

theorem succ_to_step {g : Grid} {goal : Pos} {s s2 : DeliveryState}
    {a : String} {c : Nat} (hmem : (s2, a, c) ∈ get_successors g goal s) :
    StepRel g s.current_pos a s2.current_pos c ∧ s2.target_pos = goal ∧
      s2.cost_so_far = s.cost_so_far + c := by
  unfold get_successors at hmem
  rcases List.mem_append.mp hmem with hl | hr
  · obtain ⟨ad, had, hms⟩ := List.mem_filterMap.mp hl
    have had4 : ad = ("up", ((0 : Int), (-1 : Int))) ∨
        ad = ("down", ((0 : Int), (1 : Int))) ∨
        ad = ("left", ((-1 : Int), (0 : Int))) ∨
        ad = ("right", ((1 : Int), (0 : Int))) := by
      simpa [dirDelta] using had
    rcases had4 with rfl | rfl | rfl | rfl <;>
    · unfold moveSucc at hms
      split at hms
      case isFalse => exact absurd hms (by simp)
      case isTrue hinb =>
        split at hms
        case isTrue => exact absurd hms (by simp)
        case isFalse hnb =>
          split at hms
          case h_1 => exact absurd hms (by simp)
          case h_2 t htr =>
            have h := Option.some_inj.mp hms
            injection h with hs hrest
            injection hrest with ha hc
            subst ha
            subst hc
            subst hs
            exact ⟨Or.inr ⟨_, by decide, rfl, hinb,
              (Bool.not_eq_true _) ▸ hnb, htr⟩, rfl, rfl⟩
  · split at hr
    · rename_i e hex
      simp only [List.mem_singleton] at hr
      injection hr with hs hrest
      injection hrest with ha hc
      subst ha
      subst hc
      subst hs
      exact ⟨Or.inl ⟨rfl, hex, rfl⟩, rfl, rfl⟩
    · simp at hr

theorem step_to_succ {g : Grid} (goal : Pos) {s : DeliveryState}
    {a : String} {q : Pos} {c : Nat}
    (hstep : StepRel g s.current_pos a q c) :
    (⟨q, goal, s.cost_so_far + c⟩, a, c) ∈ get_successors g goal s := by
  unfold get_successors
  rcases hstep with ⟨ha, hex, hc⟩ | ⟨d, hmd, hq, hinb, hnb, htr⟩
  · subst ha
    subst hc
    refine List.mem_append.mpr (Or.inr ?_)
    rw [hex]
    exact List.mem_singleton.mpr rfl
  · refine List.mem_append.mpr (Or.inl ?_)
    refine List.mem_filterMap.mpr ⟨(a, d), ?_, ?_⟩
    · unfold moveDelta at hmd
      split_ifs at hmd with h1 h2 h3 h4
      · subst h1
        rw [← Option.some_inj.mp hmd]
        decide
      · subst h2
        rw [← Option.some_inj.mp hmd]
        decide
      · subst h3
        rw [← Option.some_inj.mp hmd]
        decide
      · subst h4
        rw [← Option.some_inj.mp hmd]
        decide
    · unfold moveSucc
      rw [← hq] at *
      rw [if_pos hinb, if_neg (by simp [hnb]), htr]

theorem replay_cons_of_step {g : Grid} {p q : Pos} {a : String} {c : Nat}
    (hstep : StepRel g p a q c) (rest : List String) (tot : Nat) :
    replaySteps g (a :: rest) p tot = replaySteps g rest q (tot + c) := by
  rcases hstep with ⟨ha, hex, hc⟩ | ⟨d, hmd, hq, hinb, hnb, htr⟩
  · subst ha
    subst hc
    simp only [replaySteps]
    simp [hex]
  · have hat : a ≠ "tunnel" := by
      intro h
      subst h
      rw [show moveDelta "tunnel" = none by decide] at hmd
      exact Option.noConfusion hmd
    subst hq
    simp only [replaySteps]
    rw [if_neg hat, hmd]
    simp [hnb, htr]

theorem replay_cons_inv {g : Grid} (hwf : WFgrid g) {p : Pos} {a : String}
    {rest : List String} {tot : Nat} {r : Pos × Nat}
    (h : replaySteps g (a :: rest) p tot = some r) :
    ∃ q c, StepRel g p a q c ∧ replaySteps g rest q (tot + c) = some r := by
  unfold replaySteps at h
  split at h
  case isTrue ha =>
    split at h
    case h_1 => exact absurd h (by simp)
    case h_2 e hex =>
      exact ⟨e, manhattan p e, Or.inl ⟨ha, hex, rfl⟩, h⟩
  case isFalse ha =>
    split at h
    case h_1 => exact absurd h (by simp)
    case h_2 d hmd =>
      split at h
      case isTrue => exact absurd h (by simp)
      case isFalse hnb =>
        split at h
        case h_1 => exact absurd h (by simp)
        case h_2 t htr =>
          exact ⟨⟨p.x + d.1, p.y + d.2⟩, t,
            Or.inr ⟨d, hmd, rfl, (traffic_inB hwf htr).2,
              (Bool.not_eq_true _) ▸ hnb, htr⟩, h⟩

theorem replay_append (g : Grid) (l1 l2 : List String) (p : Pos)
    (tot : Nat) :
    replaySteps g (l1 ++ l2) p tot =
      (replaySteps g l1 p tot).bind fun r => replaySteps g l2 r.1 r.2 := by
  induction l1 generalizing p tot with
  | nil => rfl
  | cons a rest ih =>
    show replaySteps g (a :: (rest ++ l2)) p tot = _
    by_cases ha : a = "tunnel"
    · subst ha
      cases hex : g.get_tunnel_exit p with
      | none => simp [replaySteps, hex]
      | some e => simp [replaySteps, hex, ih]
    · cases hmd : moveDelta a with
      | none => simp [replaySteps, ha, hmd]
      | some d =>
        cases hnb : g.is_blocked p ⟨p.x + d.1, p.y + d.2⟩ with
        | true => simp [replaySteps, ha, hmd, hnb]
        | false =>
          cases htr : g.get_traffic_level p ⟨p.x + d.1, p.y + d.2⟩ with
          | none => simp [replaySteps, ha, hmd, hnb, htr]
          | some t => simp [replaySteps, ha, hmd, hnb, htr, ih]

theorem replay_ge (g : Grid) (acts : List String) (p : Pos) (tot : Nat)
    {q : Pos} {w : Nat} (h : replaySteps g acts p tot = some (q, w)) :
    tot ≤ w := by
  induction acts generalizing p tot with
  | nil =>
    unfold replaySteps at h
    have := Option.some_inj.mp h
    injection this with h1 h2
    omega
  | cons a rest ih =>
    unfold replaySteps at h
    split at h
    · split at h
      · exact absurd h (by simp)
      · exact Nat.le_trans (Nat.le_add_right _ _) (ih _ _ h)
    · split at h
      · exact absurd h (by simp)
      · split at h
        · exact absurd h (by simp)
        · split at h
          · exact absurd h (by simp)
          · exact Nat.le_trans (Nat.le_add_right _ _) (ih _ _ h)

theorem succ_len_le (g : Grid) (goal : Pos) (s : DeliveryState) :
    (get_successors g goal s).length ≤ 5 := by
  unfold get_successors
  rw [List.length_append]
  have h1 : (dirDelta.filterMap (moveSucc g goal s)).length ≤
      dirDelta.length := List.length_filterMap_le _ _
  have h2 : dirDelta.length = 4 := rfl
  split
  · simp only [List.length_singleton]
    omega
  · simp only [List.length_nil]
    omega

theorem mem_pqInsert {x e : Nat × Node} {l : List (Nat × Node)} :
    x ∈ pqInsert e l ↔ x = e ∨ x ∈ l := by
  induction l with
  | nil => simp [pqInsert]
  | cons q qs ih =>
    unfold pqInsert
    split
    · simp [List.mem_cons]
    · simp only [List.mem_cons, ih]
      tauto

theorem nodeOK_child {g : Grid} {start goal : Pos} {nd : Node}
    (hnd : NodeOK g start goal nd) {s2 : DeliveryState} {a : String}
    {c : Nat} (hmem : (s2, a, c) ∈ get_successors g goal nd.state)
    (hv : Nat) :
    NodeOK g start goal
      ⟨s2, nd.path ++ [a], nd.path_cost + c, nd.depth + 1, hv⟩ := by
  obtain ⟨hrep, htg, hdep⟩ := hnd
  obtain ⟨hstep, htgt2, _⟩ := succ_to_step hmem
  refine ⟨?_, htgt2, by simp [hdep]⟩
  rw [replay_append, hrep]
  show replaySteps g [a] nd.state.current_pos nd.path_cost =
    some (s2.current_pos, nd.path_cost + c)
  rw [replay_cons_of_step hstep]
  rfl

theorem relaxSuccs_nodeOK {g : Grid} {start goal : Pos} {h : Pos → Nat}
    {nd : Node} (hnd : NodeOK g start goal nd) :
    ∀ (succs : List (DeliveryState × String × Nat))
      (frontier : List (Nat × Node)) (dmap : List ((Pos × Pos) × Nat)),
      (∀ sac ∈ succs, sac ∈ get_successors g goal nd.state) →
      (∀ e ∈ frontier, NodeOK g start goal e.2) →
      ∀ e ∈ (relaxSuccs h nd succs frontier dmap).1,
        NodeOK g start goal e.2 := by
  intro succs
  induction succs with
  | nil => intro frontier dmap _ hfr e he; exact hfr e he
  | cons sac rest ih =>
    intro frontier dmap hsub hfr e he
    obtain ⟨s, a, c⟩ := sac
    simp only [relaxSuccs] at he
    split at he
    · refine ih _ _ (fun x hx => hsub x (List.mem_cons_of_mem _ hx)) ?_ e he
      intro e2 he2
      rcases mem_pqInsert.mp he2 with rfl | he3
      · exact nodeOK_child hnd (hsub _ (List.mem_cons_self _ _)) _
      · exact hfr e2 he3
    · exact ih _ _ (fun x hx => hsub x (List.mem_cons_of_mem _ hx)) hfr e he

theorem bestFirstLoop_sound {g : Grid} {start goal : Pos} {h : Pos → Nat} :
    ∀ (fuel : Nat) (frontier : List (Nat × Node))
      (explored : List (Pos × Pos)) (dmap : List ((Pos × Pos) × Nat))
      (nodes : Nat),
      (∀ e ∈ frontier, NodeOK g start goal e.2) →
      ∀ {p : List String} {c n : Nat},
        bestFirstLoop g goal h fuel frontier explored dmap nodes =
          SearchResult.found p c n →
        ReachesWithCost g start goal p c := by
  intro fuel
  induction fuel with
  | zero => intro frontier explored dmap nodes _ p c n hres; cases hres
  | succ f ih =>
    intro frontier explored dmap nodes hfr p c n hres
    cases frontier with
    | nil => cases hres
    | cons e rest =>
      obtain ⟨pr, node⟩ := e
      simp only [bestFirstLoop] at hres
      split at hres
      · rename_i hg
        injection hres with h1 h2 h3
        subst h1
        subst h2
        obtain ⟨hrep, _, _⟩ := hfr _ (List.mem_cons_self _ _)
        unfold ReachesWithCost
        rw [hrep, hg]
      · split at hres
        · exact ih rest explored dmap (nodes + 1)
            (fun x hx => hfr x (List.mem_cons_of_mem _ hx)) hres
        · refine ih _ _ _ _ ?_ hres
          exact relaxSuccs_nodeOK (hfr _ (List.mem_cons_self _ _)) _ _ _
            (fun x hx => hx)
            (fun x hx => hfr x (List.mem_cons_of_mem _ hx))

theorem nodeOK_start (g : Grid) (start goal : Pos) (h0 : Nat) :
    NodeOK g start goal (mkStartNode start goal h0) :=
  ⟨rfl, rfl, rfl⟩

theorem uniform_cost_sound {g : Grid} {start goal : Pos} {h0 fuel : Nat}
    {p : List String} {c n : Nat}
    (hres : uniform_cost_search g goal (mkStartNode start goal h0) fuel =
      SearchResult.found p c n) :
    ReachesWithCost g start goal p c := by
  unfold uniform_cost_search at hres
  split at hres
  · rename_i hg
    injection hres with h1 h2 h3
    subst h1
    subst h2
    show replaySteps g [] start 0 = some (goal, 0)
    rw [show goal = start from hg.symm]
    rfl
  · exact bestFirstLoop_sound fuel _ _ _ _
      (by
        intro e he
        rcases List.mem_singleton.mp he with rfl
        exact nodeOK_start g start goal h0) hres

theorem a_star_sound {g : Grid} {start goal : Pos} {h0 hnum fuel : Nat}
    {p : List String} {c n : Nat}
    (hres : a_star_search g goal (mkStartNode start goal h0) hnum fuel =
      SearchResult.found p c n) :
    ReachesWithCost g start goal p c := by
  unfold a_star_search at hres
  split at hres
  · rename_i hg
    injection hres with h1 h2 h3
    subst h1
    subst h2
    show replaySteps g [] start 0 = some (goal, 0)
    rw [show goal = start from hg.symm]
    rfl
  · exact bestFirstLoop_sound fuel _ _ _ _
      (by
        intro e he
        rcases List.mem_singleton.mp he with rfl
        exact nodeOK_start g start goal h0) hres

/-- C7: the plan returned by uniform-cost search or by A* (any heuristic
number), replayed through get_cost_of_actions from the same start position,
costs exactly the total the search reported. -/
theorem c7_replay_equals_reported_cost (g : Grid) (start goal : Pos)
    (h0 hnum fuel : Nat) :
    (∀ p c n,
      uniform_cost_search g goal (mkStartNode start goal h0) fuel =
        SearchResult.found p c n →
      get_cost_of_actions g start p = some c) ∧
    (∀ p c n,
      a_star_search g goal (mkStartNode start goal h0) hnum fuel =
        SearchResult.found p c n →
      get_cost_of_actions g start p = some c) := by
  constructor
  · intro p c n hres
    unfold get_cost_of_actions
    rw [uniform_cost_sound hres]
    rfl
  · intro p c n hres
    unfold get_cost_of_actions
    rw [a_star_sound hres]
    rfl

/-- C7 witness: on the concrete 2 x 1 grid both searches return the plan
["right"] at cost 1, and the replay prices it at exactly 1. -/
theorem c7_witness :
    uniform_cost_search gridTwo ⟨1, 0⟩ (mkStartNode ⟨0, 0⟩ ⟨1, 0⟩ 0) 10 =
      SearchResult.found ["right"] 1 2 ∧
    get_cost_of_actions gridTwo ⟨0, 0⟩ ["right"] = some 1 :=
  ⟨by decide,
    (c7_replay_equals_reported_cost gridTwo ⟨0, 0⟩ ⟨1, 0⟩ 0 1 10).1
      ["right"] 1 2 (by decide)⟩

theorem greedyPush_nodeOK {g : Grid} {start goal : Pos} {hf : Pos → Nat}
    {nd : Node} (hnd : NodeOK g start goal nd)
    (explored : List (Pos × Pos)) :
    ∀ (succs : List (DeliveryState × String × Nat))
      (frontier : List (Nat × Node)),
      (∀ sac ∈ succs, sac ∈ get_successors g goal nd.state) →
      (∀ e ∈ frontier, NodeOK g start goal e.2) →
      ∀ e ∈ greedyPush hf nd explored frontier succs,
        NodeOK g start goal e.2 := by
  intro succs
  induction succs with
  | nil => intro frontier _ hfr e he; exact hfr e he
  | cons sac rest ih =>
    intro frontier hsub hfr e he
    simp only [greedyPush] at he
    split at he
    · exact ih _ (fun x hx => hsub x (List.mem_cons_of_mem _ hx)) hfr e he
    · refine ih _ (fun x hx => hsub x (List.mem_cons_of_mem _ hx)) ?_ e he
      intro e2 he2
      rcases mem_pqInsert.mp he2 with rfl | he3
      · exact nodeOK_child hnd (hsub _ (List.mem_cons_self _ _)) _
      · exact hfr e2 he3

theorem greedyLoop_sound {g : Grid} {start goal : Pos} {hf : Pos → Nat} :
    ∀ (fuel : Nat) (frontier : List (Nat × Node))
      (explored : List (Pos × Pos)) (nodes : Nat),
      (∀ e ∈ frontier, NodeOK g start goal e.2) →
      ∀ {p : List String} {c n : Nat},
        greedyLoop g goal hf fuel frontier explored nodes =
          SearchResult.found p c n →
        ReachesWithCost g start goal p c := by
  intro fuel
  induction fuel with
  | zero => intro _ _ _ _ p c n hres; cases hres
  | succ f ih =>
    intro frontier explored nodes hfr p c n hres
    cases frontier with
    | nil => cases hres
    | cons e rest =>
      obtain ⟨pr, node⟩ := e
      simp only [greedyLoop] at hres
      split at hres
      · rename_i hg
        injection hres with h1 h2 h3
        subst h1
        subst h2
        obtain ⟨hrep, _, _⟩ := hfr _ (List.mem_cons_self _ _)
        unfold ReachesWithCost
        rw [hrep, hg]
      · split at hres
        · exact ih rest explored (nodes + 1)
            (fun x hx => hfr x (List.mem_cons_of_mem _ hx)) hres
        · refine ih _ _ _ ?_ hres
          exact greedyPush_nodeOK (hfr _ (List.mem_cons_self _ _)) _ _ _
            (fun x hx => hx)
            (fun x hx => hfr x (List.mem_cons_of_mem _ hx))

theorem dfsChildren_nodeOK {g : Grid} {start goal : Pos} {nd : Node}
    (hnd : NodeOK g start goal nd) (explored : List (Pos × Pos)) :
    ∀ ch ∈ dfsChildren g goal nd explored, NodeOK g start goal ch := by
  intro ch hch
  unfold dfsChildren at hch
  obtain ⟨sac, hsac, heq⟩ := List.mem_filterMap.mp hch
  obtain ⟨s, a, c⟩ := sac
  split at heq
  · cases heq
  · rw [← Option.some_inj.mp heq]
    exact nodeOK_child hnd hsac _

theorem dfsStep_halt_found {g : Grid} {goal : Pos} {lim : Option Nat}
    {frontier : List Node} {explored : List (Pos × Pos)}
    {nodes : Nat} {p : List String} {c n : Nat}
    (h : dfsStep g goal lim frontier explored nodes =
      StepOut.halt (SearchResult.found p c n)) :
    ∃ node rest, frontier = node :: rest ∧
      node.state.current_pos = goal ∧ p = node.path ∧ c = node.path_cost ∧
      n = nodes + 1 := by
  cases frontier with
  | nil =>
    injection h with h2
    cases h2
  | cons node rest =>
    simp only [dfsStep] at h
    split at h
    · rename_i hg
      injection h with h2
      injection h2 with h3 h4 h5
      exact ⟨node, rest, rfl, hg, h3.symm, h4.symm, h5.symm⟩
    · split at h <;> cases h

theorem dfsStep_next {g : Grid} {goal : Pos} {lim : Option Nat}
    {frontier f2 : List Node} {explored e2 : List (Pos × Pos)}
    {nodes n2 : Nat}
    (h : dfsStep g goal lim frontier explored nodes =
      StepOut.next f2 e2 n2) :
    ∃ node rest, frontier = node :: rest ∧ n2 = nodes + 1 ∧
      node.state.current_pos ≠ goal ∧
      ((f2 = rest ∧ e2 = explored ∧
          (skey node.state ∈ explored ∨ atLimit node lim)) ∨
        (f2 = dfsChildren g goal node (skey node.state :: explored) ++ rest ∧
          e2 = skey node.state :: explored ∧
          skey node.state ∉ explored ∧ ¬atLimit node lim)) := by
  cases frontier with
  | nil => cases h
  | cons node rest =>
    simp only [dfsStep] at h
    split at h
    · cases h
    · rename_i hg
      split at h
      · rename_i hsk
        injection h with h1 h2 h3
        exact ⟨node, rest, rfl, h3.symm, hg, Or.inl ⟨h1.symm, h2.symm, hsk⟩⟩
      · rename_i hsk
        push_neg at hsk
        injection h with h1 h2 h3
        exact ⟨node, rest, rfl, h3.symm, hg,
          Or.inr ⟨h1.symm, h2.symm, hsk.1, hsk.2⟩⟩

theorem dfsLoop_sound {g : Grid} {start goal : Pos} {lim : Option Nat} :
    ∀ (fuel : Nat) (frontier : List Node) (explored : List (Pos × Pos))
      (nodes : Nat),
      (∀ nd ∈ frontier, NodeOK g start goal nd) →
      ∀ {p : List String} {c n : Nat},
        dfsLoop g goal lim fuel frontier explored nodes =
          SearchResult.found p c n →
        ReachesWithCost g start goal p c := by
  intro fuel
  induction fuel with
  | zero => intro _ _ _ _ p c n hres; cases hres
  | succ f ih =>
    intro frontier explored nodes hfr p c n hres
    rw [dfsLoop] at hres
    cases hstep : dfsStep g goal lim frontier explored nodes with
    | halt r =>
      rw [hstep] at hres
      subst hres
      obtain ⟨node, rest, heq, hg, hp, hc, _⟩ := dfsStep_halt_found hstep
      subst hp
      subst hc
      obtain ⟨hrep, _, _⟩ := hfr node (heq ▸ List.mem_cons_self _ _)
      unfold ReachesWithCost
      rw [hrep, hg]
    | next f2 e2 n2 =>
      rw [hstep] at hres
      obtain ⟨node, rest, heq, _, _, hcase⟩ := dfsStep_next hstep
      subst heq
      rcases hcase with ⟨rfl, rfl, _⟩ | ⟨rfl, rfl, _, _⟩
      · exact ih _ _ _ (fun x hx => hfr x (List.mem_cons_of_mem _ hx)) hres
      · refine ih _ _ _ ?_ hres
        intro nd hnd
        rcases List.mem_append.mp hnd with hmem | hmem
        · exact dfsChildren_nodeOK (hfr _ (List.mem_cons_self _ _)) _ _ hmem
        · exact hfr _ (List.mem_cons_of_mem _ hmem)

theorem depth_first_sound {g : Grid} {start goal : Pos} {h0 : Nat}
    {lim : Option Nat} {fuel : Nat} {p : List String} {c n : Nat}
    (hres : depth_first_search g goal (mkStartNode start goal h0) lim fuel =
      SearchResult.found p c n) :
    ReachesWithCost g start goal p c := by
  unfold depth_first_search at hres
  refine dfsLoop_sound fuel _ _ _ ?_ hres
  intro nd hnd
  rcases List.mem_singleton.mp hnd with rfl
  exact nodeOK_start g start goal h0

theorem idsLoop_sound {g : Grid} {start goal : Pos} {h0 dfsFuel : Nat} :
    ∀ (iters depth tot : Nat) {p : List String} {c n : Nat},
      idsLoop g goal (mkStartNode start goal h0) dfsFuel iters depth tot =
        SearchResult.found p c n →
      ReachesWithCost g start goal p c := by
  intro iters
  induction iters with
  | zero => intro _ _ p c n hres; cases hres
  | succ it ih =>
    intro depth tot p c n hres
    rw [idsLoop] at hres
    split at hres
    · rename_i p2 c2 n2 hdfs
      injection hres with h1 h2 h3
      subst h1
      subst h2
      exact depth_first_sound hdfs
    · cases hres
    · split at hres
      · cases hres
      · exact ih _ _ hres

theorem iterative_deepening_sound {g : Grid} {start goal : Pos}
    {h0 dfsFuel : Nat} {p : List String} {c n : Nat}
    (hres : iterative_deepening_search g goal (mkStartNode start goal h0)
      dfsFuel = SearchResult.found p c n) :
    ReachesWithCost g start goal p c :=
  idsLoop_sound 1001 0 0 hres

theorem bfsExpand_inr {g : Grid} {goal : Pos} {node : Node} :
    ∀ (succs : List (DeliveryState × String × Nat))
      (frontier : List Node) (explored : List (Pos × Pos))
      {p : List String} {c : Nat},
      bfsExpand g goal node succs frontier explored = Sum.inr (p, c) →
      ∃ s2 a cc, (s2, a, cc) ∈ succs ∧ s2.current_pos = goal ∧
        skey s2 ∉ explored ∧ p = node.path ++ [a] ∧
        c = node.path_cost + cc := by
  intro succs
  induction succs with
  | nil => intro _ _ p c h; cases h
  | cons sac rest ih =>
    intro frontier explored p c h
    obtain ⟨s, a, cc⟩ := sac
    simp only [bfsExpand] at h
    split at h
    · obtain ⟨s2, a2, cc2, hmem, hgoal, hnx, hp, hc⟩ := ih _ _ h
      exact ⟨s2, a2, cc2, List.mem_cons_of_mem _ hmem, hgoal, hnx, hp, hc⟩
    · rename_i hnx
      split at h
      · rename_i hgoal
        injection h with h2
        injection h2 with hp hc
        exact ⟨s, a, cc, List.mem_cons_self _ _, hgoal, hnx, hp.symm, hc.symm⟩
      · obtain ⟨s2, a2, cc2, hmem, hgoal, hnx2, hp, hc⟩ := ih _ _ h
        exact ⟨s2, a2, cc2, List.mem_cons_of_mem _ hmem, hgoal, hnx2, hp, hc⟩

theorem bfsExpand_inl {g : Grid} {goal : Pos} {node : Node} :
    ∀ (succs : List (DeliveryState × String × Nat))
      (frontier : List Node) (explored : List (Pos × Pos))
      {frontier2 : List Node},
      bfsExpand g goal node succs frontier explored = Sum.inl frontier2 →
      ∀ nd ∈ frontier2, nd ∈ frontier ∨
        ∃ s2 a cc, (s2, a, cc) ∈ succs ∧
          nd = ⟨s2, node.path ++ [a], node.path_cost + cc,
            node.depth + 1, 0⟩ ∧
          s2.current_pos ≠ goal ∧ skey s2 ∉ explored := by
  intro succs
  induction succs with
  | nil =>
    intro frontier explored frontier2 h nd hnd
    injection h with h2
    exact Or.inl (h2 ▸ hnd)
  | cons sac rest ih =>
    intro frontier explored frontier2 h nd hnd
    obtain ⟨s, a, cc⟩ := sac
    simp only [bfsExpand] at h
    split at h
    · rcases ih _ _ h nd hnd with hin | ⟨s2, a2, cc2, hmem, hrest⟩
      · exact Or.inl hin
      · exact Or.inr ⟨s2, a2, cc2, List.mem_cons_of_mem _ hmem, hrest⟩
    · rename_i hnx
      split at h
      · cases h
      · rename_i hgoal
        rcases ih _ _ h nd hnd with hin | ⟨s2, a2, cc2, hmem, hrest⟩
        · rcases List.mem_append.mp hin with hin2 | hin2
          · exact Or.inl hin2
          · refine Or.inr ⟨s, a, cc, List.mem_cons_self _ _, ?_, hgoal, hnx⟩
            exact List.mem_singleton.mp hin2
        · exact Or.inr ⟨s2, a2, cc2, List.mem_cons_of_mem _ hmem, hrest⟩

theorem bfsLoop_sound {g : Grid} {start goal : Pos} :
    ∀ (fuel : Nat) (frontier : List Node) (explored : List (Pos × Pos))
      (nodes : Nat),
      (∀ nd ∈ frontier, NodeOK g start goal nd) →
      ∀ {p : List String} {c n : Nat},
        bfsLoop g goal fuel frontier explored nodes =
          SearchResult.found p c n →
        ReachesWithCost g start goal p c := by
  intro fuel
  induction fuel with
  | zero => intro _ _ _ _ p c n hres; cases hres
  | succ f ih =>
    intro frontier explored nodes hfr p c n hres
    cases frontier with
    | nil => cases hres
    | cons node rest =>
      simp only [bfsLoop] at hres
      split at hres
      · exact ih rest explored (nodes + 1)
          (fun x hx => hfr x (List.mem_cons_of_mem _ hx)) hres
      · split at hres
        · rename_i pc hexp
          injection hres with hp hc hn
          obtain ⟨s2, a2, cc2, hmem, hgoal, _, hp2, hc2⟩ :=
            bfsExpand_inr _ _ _ hexp
          have hok := nodeOK_child (hfr node (List.mem_cons_self _ _)) hmem 0
          obtain ⟨hrep, _, _⟩ := hok
          have hrep2 : replaySteps g (node.path ++ [a2]) start 0 =
              some (s2.current_pos, node.path_cost + cc2) := hrep
          have h3 : p = node.path ++ [a2] := hp.symm.trans hp2
          have h4 : c = node.path_cost + cc2 := hc.symm.trans hc2
          rw [h3, h4]
          unfold ReachesWithCost
          rw [hrep2, hgoal]
        · rename_i fr2 hexp
          refine ih _ _ _ ?_ hres
          intro nd hnd
          rcases bfsExpand_inl _ _ _ hexp nd hnd with hin |
            ⟨s2, a2, cc2, hmem, hnd2, _, _⟩
          · exact hfr _ (List.mem_cons_of_mem _ hin)
          · rw [hnd2]
            exact nodeOK_child (hfr node (List.mem_cons_self _ _)) hmem 0

theorem breadth_first_sound {g : Grid} {start goal : Pos} {h0 fuel : Nat}
    {p : List String} {c n : Nat}
    (hres : breadth_first_search g goal (mkStartNode start goal h0) fuel =
      SearchResult.found p c n) :
    ReachesWithCost g start goal p c := by
  unfold breadth_first_search at hres
  split at hres
  · rename_i hg
    injection hres with h1 h2 h3
    subst h1
    subst h2
    show replaySteps g [] start 0 = some (goal, 0)
    rw [show goal = start from hg.symm]
    rfl
  · refine bfsLoop_sound fuel _ _ _ ?_ hres
    intro nd hnd
    rcases List.mem_singleton.mp hnd with rfl
    exact nodeOK_start g start goal h0

theorem mem_boundPositions {g : Grid} {p : Pos} (h : inBoundsP g p) :
    p ∈ boundPositions g := by
  obtain ⟨h1, h2, h3, h4⟩ := h
  unfold boundPositions
  simp only [List.mem_flatMap, List.mem_map, List.mem_range]
  refine ⟨p.x.toNat, by omega, p.y, ?_, ?_⟩
  · refine List.mem_flatMap.mpr ⟨p.y.toNat, List.mem_range.mpr (by omega), ?_⟩
    simp [Int.toNat_of_nonneg h3]
  · cases p
    simp_all [Int.toNat_of_nonneg]

theorem tunnel_mem_exits {g : Grid} {p e : Pos}
    (h : g.get_tunnel_exit p = some e) : e ∈ tunnelExits g := by
  unfold Grid.get_tunnel_exit at h
  have := alookup_mem h
  unfold tunnelExits
  exact List.mem_map.mpr ⟨(p, e), this, rfl⟩

theorem succ_key_mem_allKeys {g : Grid} {start goal : Pos}
    {s s2 : DeliveryState} {a : String} {c : Nat}
    (hmem : (s2, a, c) ∈ get_successors g goal s) :
    skey s2 ∈ allKeys g start goal := by
  obtain ⟨hstep, htgt, _⟩ := succ_to_step hmem
  unfold skey
  rw [htgt]
  unfold allKeys
  rcases hstep with ⟨_, hex, _⟩ | ⟨d, _, _, hinb, _, _⟩
  · refine List.mem_cons_of_mem _ (List.mem_map.mpr ⟨s2.current_pos, ?_, rfl⟩)
    exact List.mem_append.mpr (Or.inr (tunnel_mem_exits hex))
  · refine List.mem_cons_of_mem _ (List.mem_map.mpr ⟨s2.current_pos, ?_, rfl⟩)
    exact List.mem_append.mpr (Or.inl (mem_boundPositions hinb))

theorem nodup_subset_length {α : Type} {l1 l2 : List α}
    (hnd : l1.Nodup) (hsub : l1 ⊆ l2) : l1.length ≤ l2.length :=
  (List.subperm_of_subset hnd hsub).length_le

theorem pqInsert_length (e : Nat × Node) (l : List (Nat × Node)) :
    (pqInsert e l).length = l.length + 1 := by
  induction l with
  | nil => rfl
  | cons q qs ih =>
    unfold pqInsert
    split
    · rfl
    · simp [ih]

theorem relaxSuccs_len {h : Pos → Nat} {nd : Node} :
    ∀ (succs : List (DeliveryState × String × Nat))
      (frontier : List (Nat × Node)) (dmap : List ((Pos × Pos) × Nat)),
      (relaxSuccs h nd succs frontier dmap).1.length ≤
        frontier.length + succs.length := by
  intro succs
  induction succs with
  | nil => intro frontier dmap; simp [relaxSuccs]
  | cons sac rest ih =>
    intro frontier dmap
    obtain ⟨s, a, c⟩ := sac
    simp only [relaxSuccs]
    split
    · have := ih (pqInsert (nd.path_cost + c + h s.current_pos,
        ⟨s, nd.path ++ [a], nd.path_cost + c, nd.depth + 1,
          h s.current_pos⟩) frontier) ((skey s, nd.path_cost + c) :: dmap)
      rw [pqInsert_length] at this
      simp only [List.length_cons]
      omega
    · have := ih frontier dmap
      simp only [List.length_cons]
      omega

theorem relaxSuccs_keys {g : Grid} {start goal : Pos} {h : Pos → Nat}
    {nd : Node} :
    ∀ (succs : List (DeliveryState × String × Nat))
      (frontier : List (Nat × Node)) (dmap : List ((Pos × Pos) × Nat)),
      (∀ sac ∈ succs, sac ∈ get_successors g goal nd.state) →
      (∀ e ∈ frontier, skey e.2.state ∈ allKeys g start goal) →
      ∀ e ∈ (relaxSuccs h nd succs frontier dmap).1,
        skey e.2.state ∈ allKeys g start goal := by
  intro succs
  induction succs with
  | nil => intro frontier dmap _ hfr e he; exact hfr e he
  | cons sac rest ih =>
    intro frontier dmap hsub hfr e he
    obtain ⟨s, a, c⟩ := sac
    simp only [relaxSuccs] at he
    split at he
    · refine ih _ _ (fun x hx => hsub x (List.mem_cons_of_mem _ hx)) ?_ e he
      intro e2 he2
      rcases mem_pqInsert.mp he2 with rfl | he3
      · exact succ_key_mem_allKeys (hsub _ (List.mem_cons_self _ _))
      · exact hfr e2 he3
    · exact ih _ _ (fun x hx => hsub x (List.mem_cons_of_mem _ hx)) hfr e he

theorem bestFirstLoop_no_fuelOut {g : Grid} {start goal : Pos}
    {h : Pos → Nat} :
    ∀ (fuel : Nat) (frontier : List (Nat × Node))
      (explored : List (Pos × Pos)) (dmap : List ((Pos × Pos) × Nat))
      (nodes : Nat),
      (∀ e ∈ frontier, skey e.2.state ∈ allKeys g start goal) →
      explored.Nodup → (∀ k ∈ explored, k ∈ allKeys g start goal) →
      frontier.length +
        5 * ((allKeys g start goal).length - explored.length) + 1 ≤ fuel →
      bestFirstLoop g goal h fuel frontier explored dmap nodes ≠
        SearchResult.fuelOut := by
  intro fuel
  induction fuel with
  | zero => intro _ _ _ _ _ _ _ hm; omega
  | succ f ih =>
    intro frontier explored dmap nodes hkeys hnd hsub hm
    cases frontier with
    | nil => simp [bestFirstLoop]
    | cons e rest =>
      obtain ⟨pr, node⟩ := e
      simp only [bestFirstLoop]
      split
      · simp
      · split
        · refine ih rest explored dmap (nodes + 1)
            (fun x hx => hkeys x (List.mem_cons_of_mem _ hx)) hnd hsub ?_
          simp only [List.length_cons] at hm
          omega
        · rename_i hg hsk
          have hknode : skey node.state ∈ allKeys g start goal :=
            hkeys _ (List.mem_cons_self _ _)
          have hnd2 : (skey node.state :: explored).Nodup :=
            List.nodup_cons.mpr ⟨hsk, hnd⟩
          have hsub2 : ∀ k ∈ skey node.state :: explored,
              k ∈ allKeys g start goal := by
            intro k hk
            rcases List.mem_cons.mp hk with rfl | hk2
            · exact hknode
            · exact hsub k hk2
          have hexlen : (skey node.state :: explored).length ≤
              (allKeys g start goal).length :=
            nodup_subset_length hnd2 hsub2
          refine ih _ _ _ _ ?_ hnd2 hsub2 ?_
          · exact relaxSuccs_keys _ _ _ (fun x hx => hx)
              (fun x hx => hkeys x (List.mem_cons_of_mem _ hx))
          · have hlen := @relaxSuccs_len h node
              (get_successors g goal node.state) rest dmap
            have hs5 := succ_len_le g goal node.state
            simp only [List.length_cons] at hm hexlen ⊢
            omega

theorem bfsExpand_inl_len {g : Grid} {goal : Pos} {node : Node} :
    ∀ (succs : List (DeliveryState × String × Nat))
      (frontier : List Node) (explored : List (Pos × Pos))
      {frontier2 : List Node},
      bfsExpand g goal node succs frontier explored = Sum.inl frontier2 →
      frontier2.length ≤ frontier.length + succs.length := by
  intro succs
  induction succs with
  | nil =>
    intro frontier explored frontier2 h
    injection h with h2
    simp [← h2]
  | cons sac rest ih =>
    intro frontier explored frontier2 h
    obtain ⟨s, a, cc⟩ := sac
    simp only [bfsExpand] at h
    split at h
    · have := ih _ _ h
      simp only [List.length_cons, List.length_append,
        List.length_singleton, List.length_nil] at *
      omega
    · split at h
      · cases h
      · have := ih _ _ h
        simp only [List.length_cons, List.length_append,
          List.length_singleton, List.length_nil] at *
        omega

theorem bfsLoop_no_fuelOut {g : Grid} {start goal : Pos} :
    ∀ (fuel : Nat) (frontier : List Node) (explored : List (Pos × Pos))
      (nodes : Nat),
      (∀ nd ∈ frontier, skey nd.state ∈ allKeys g start goal) →
      explored.Nodup → (∀ k ∈ explored, k ∈ allKeys g start goal) →
      frontier.length +
        5 * ((allKeys g start goal).length - explored.length) + 1 ≤ fuel →
      bfsLoop g goal fuel frontier explored nodes ≠
        SearchResult.fuelOut := by
  intro fuel
  induction fuel with
  | zero => intro _ _ _ _ _ _ hm; omega
  | succ f ih =>
    intro frontier explored nodes hkeys hnd hsub hm
    cases frontier with
    | nil => simp [bfsLoop]
    | cons node rest =>
      simp only [bfsLoop]
      split
      · refine ih rest explored (nodes + 1)
          (fun x hx => hkeys x (List.mem_cons_of_mem _ hx)) hnd hsub ?_
        simp only [List.length_cons] at hm
        omega
      · rename_i hsk
        cases hexp : bfsExpand g goal node
            (get_successors g goal node.state) rest
            (skey node.state :: explored) with
        | inr pc => simp
        | inl frontier2 =>
          have hknode : skey node.state ∈ allKeys g start goal :=
            hkeys _ (List.mem_cons_self _ _)
          have hnd2 : (skey node.state :: explored).Nodup :=
            List.nodup_cons.mpr ⟨hsk, hnd⟩
          have hsub2 : ∀ k ∈ skey node.state :: explored,
              k ∈ allKeys g start goal := by
            intro k hk
            rcases List.mem_cons.mp hk with rfl | hk2
            · exact hknode
            · exact hsub k hk2
          have hexlen : (skey node.state :: explored).length ≤
              (allKeys g start goal).length :=
            nodup_subset_length hnd2 hsub2
          refine ih frontier2 _ (nodes + 1) ?_ hnd2 hsub2 ?_
          · intro nd hnd3
            rcases bfsExpand_inl _ _ _ hexp nd hnd3 with hin |
              ⟨s2, a2, cc2, hmem, hnd4, _, _⟩
            · exact hkeys _ (List.mem_cons_of_mem _ hin)
            · rw [hnd4]
              exact succ_key_mem_allKeys hmem
          · have hlen := bfsExpand_inl_len _ _ _ hexp
            have hs5 := succ_len_le g goal node.state
            simp only [List.length_cons] at hm hexlen ⊢
            omega

theorem dfsChildren_keys {g : Grid} {start goal : Pos} {node : Node}
    (explored : List (Pos × Pos)) :
    ∀ nd ∈ dfsChildren g goal node explored,
      skey nd.state ∈ allKeys g start goal := by
  intro nd hmem
  unfold dfsChildren at hmem
  obtain ⟨sac, hsac, heq2⟩ := List.mem_filterMap.mp hmem
  obtain ⟨s, a, c⟩ := sac
  split at heq2
  · cases heq2
  · rw [← Option.some_inj.mp heq2]
    exact succ_key_mem_allKeys hsac

theorem dfsChildren_len (g : Grid) (goal : Pos) (node : Node)
    (explored : List (Pos × Pos)) :
    (dfsChildren g goal node explored).length ≤ 5 := by
  have h5 := succ_len_le g goal node.state
  have h2 := List.length_filterMap_le
    (fun sac : DeliveryState × String × Nat =>
      if skey sac.1 ∈ explored then none
      else some (⟨sac.1, node.path ++ [sac.2.1],
        node.path_cost + sac.2.2, node.depth + 1, 0⟩ : Node))
    (get_successors g goal node.state)
  unfold dfsChildren
  omega

theorem dfsLoop_no_fuelOut {g : Grid} {start goal : Pos}
    {lim : Option Nat} :
    ∀ (fuel : Nat) (frontier : List Node) (explored : List (Pos × Pos))
      (nodes : Nat),
      (∀ nd ∈ frontier, skey nd.state ∈ allKeys g start goal) →
      explored.Nodup → (∀ k ∈ explored, k ∈ allKeys g start goal) →
      frontier.length +
        5 * ((allKeys g start goal).length - explored.length) + 1 ≤ fuel →
      dfsLoop g goal lim fuel frontier explored nodes ≠
        SearchResult.fuelOut := by
  intro fuel
  induction fuel with
  | zero => intro _ _ _ _ _ _ hm; omega
  | succ f ih =>
    intro frontier explored nodes hkeys hnd hsub hm
    rw [dfsLoop]
    cases hstep : dfsStep g goal lim frontier explored nodes with
    | halt r =>
      cases frontier with
      | nil =>
        injection hstep with h2
        rw [← h2]
        simp
      | cons node rest =>
        simp only [dfsStep] at hstep
        split at hstep
        · injection hstep with h2
          rw [← h2]
          simp
        · split at hstep <;> cases hstep
    | next f2 e2 n2 =>
      obtain ⟨node, rest, heq, hn2, _, hcase⟩ := dfsStep_next hstep
      subst heq
      rcases hcase with ⟨hf2, he2, _⟩ | ⟨hf2, he2, hsk, _⟩
      · subst hf2
        subst he2
        refine ih _ _ n2
          (fun x hx => hkeys x (List.mem_cons_of_mem _ hx)) hnd hsub ?_
        simp only [List.length_cons] at hm
        omega
      · subst hf2
        subst he2
        have hknode : skey node.state ∈ allKeys g start goal :=
          hkeys _ (List.mem_cons_self _ _)
        have hnd2 : (skey node.state :: explored).Nodup :=
          List.nodup_cons.mpr ⟨hsk, hnd⟩
        have hsub2 : ∀ k ∈ skey node.state :: explored,
            k ∈ allKeys g start goal := by
          intro k hk
          rcases List.mem_cons.mp hk with rfl | hk2
          · exact hknode
          · exact hsub k hk2
        have hexlen : (skey node.state :: explored).length ≤
            (allKeys g start goal).length :=
          nodup_subset_length hnd2 hsub2
        refine ih _ _ n2 ?_ hnd2 hsub2 ?_
        · intro nd hnd3
          rcases List.mem_append.mp hnd3 with hmem | hmem
          · exact dfsChildren_keys _ nd hmem
          · exact hkeys _ (List.mem_cons_of_mem _ hmem)
        · have hch := dfsChildren_len g goal node (skey node.state :: explored)
          simp only [List.length_append, List.length_cons] at hm hexlen ⊢
          omega

theorem bestFirstLoop_nopath_ge {g : Grid} {goal : Pos} {h : Pos → Nat} :
    ∀ (fuel : Nat) (frontier : List (Nat × Node))
      (explored : List (Pos × Pos)) (dmap : List ((Pos × Pos) × Nat))
      (nodes m : Nat),
      bestFirstLoop g goal h fuel frontier explored dmap nodes =
        SearchResult.nopath m →
      nodes ≤ m ∧ (frontier ≠ [] → nodes + 1 ≤ m) := by
  intro fuel
  induction fuel with
  | zero => intro _ _ _ _ _ hres; cases hres
  | succ f ih =>
    intro frontier explored dmap nodes m hres
    cases frontier with
    | nil =>
      injection hres with h2
      exact ⟨by omega, fun hc => absurd rfl hc⟩
    | cons e rest =>
      obtain ⟨pr, node⟩ := e
      simp only [bestFirstLoop] at hres
      split at hres
      · cases hres
      · split at hres
        · have := (ih _ _ _ _ _ hres).1
          exact ⟨by omega, fun _ => by omega⟩
        · have := (ih _ _ _ _ _ hres).1
          exact ⟨by omega, fun _ => by omega⟩

theorem bfsLoop_nopath_ge {g : Grid} {goal : Pos} :
    ∀ (fuel : Nat) (frontier : List Node) (explored : List (Pos × Pos))
      (nodes m : Nat),
      bfsLoop g goal fuel frontier explored nodes =
        SearchResult.nopath m →
      nodes ≤ m ∧ (frontier ≠ [] → nodes + 1 ≤ m) := by
  intro fuel
  induction fuel with
  | zero => intro _ _ _ _ hres; cases hres
  | succ f ih =>
    intro frontier explored nodes m hres
    cases frontier with
    | nil =>
      injection hres with h2
      exact ⟨by omega, fun hc => absurd rfl hc⟩
    | cons node rest =>
      simp only [bfsLoop] at hres
      split at hres
      · have := (ih _ _ _ _ hres).1
        exact ⟨by omega, fun _ => by omega⟩
      · split at hres
        · cases hres
        · have := (ih _ _ _ _ hres).1
          exact ⟨by omega, fun _ => by omega⟩

theorem dfsLoop_nopath_ge {g : Grid} {goal : Pos} {lim : Option Nat} :
    ∀ (fuel : Nat) (frontier : List Node) (explored : List (Pos × Pos))
      (nodes m : Nat),
      dfsLoop g goal lim fuel frontier explored nodes =
        SearchResult.nopath m →
      nodes ≤ m ∧ (frontier ≠ [] → nodes + 1 ≤ m) := by
  intro fuel
  induction fuel with
  | zero => intro _ _ _ _ hres; cases hres
  | succ f ih =>
    intro frontier explored nodes m hres
    rw [dfsLoop] at hres
    cases hstep : dfsStep g goal lim frontier explored nodes with
    | halt r =>
      rw [hstep] at hres
      subst hres
      cases frontier with
      | nil =>
        injection hstep with h2
        injection h2 with h3
        exact ⟨by omega, fun hc => absurd rfl hc⟩
      | cons node rest =>
        simp only [dfsStep] at hstep
        split at hstep
        · injection hstep with h2
          cases h2
        · split at hstep <;> cases hstep
    | next f2 e2 n2 =>
      rw [hstep] at hres
      obtain ⟨node, rest, heq, hn2, _, _⟩ := dfsStep_next hstep
      have := (ih _ _ _ _ hres).1
      exact ⟨by omega, fun _ => by omega⟩

theorem idsLoop_nopath {g : Grid} {goal : Pos} {sn : Node} {dfsFuel : Nat}
    (hdfs : ∀ d : Nat, ∃ nd, 1 ≤ nd ∧
      depth_first_search g goal sn (some d) dfsFuel =
        SearchResult.nopath nd) :
    ∀ (iters depth tot : Nat), depth ≤ 1000 → 1001 ≤ iters + depth →
      ∃ m, tot + 1 ≤ m ∧
        idsLoop g goal sn dfsFuel iters depth tot =
          SearchResult.nopath m := by
  intro iters
  induction iters with
  | zero => intro depth tot h1 h2; omega
  | succ it ih =>
    intro depth tot h1 h2
    obtain ⟨nd, hnd1, hnd2⟩ := hdfs depth
    by_cases hd : 1000 < depth + 1
    · refine ⟨tot + nd, by omega, ?_⟩
      rw [idsLoop, hnd2]
      show (if 1000 < depth + 1 then SearchResult.nopath (tot + nd)
        else idsLoop g goal sn dfsFuel it (depth + 1) (tot + nd)) =
        SearchResult.nopath (tot + nd)
      rw [if_pos hd]
    · obtain ⟨m, hm1, hm2⟩ := ih (depth + 1) (tot + nd) (by omega) (by omega)
      refine ⟨m, by omega, ?_⟩
      rw [idsLoop, hnd2]
      show (if 1000 < depth + 1 then SearchResult.nopath (tot + nd)
        else idsLoop g goal sn dfsFuel it (depth + 1) (tot + nd)) =
        SearchResult.nopath m
      rw [if_neg hd]
      exact hm2

theorem gridBlocked_no_step (a : String) (rest : List String) (p : Pos)
    (tot : Nat) : replaySteps gridBlocked (a :: rest) p tot = none := by
  simp only [replaySteps]
  split
  · rfl
  · cases hmd : moveDelta a with
    | none => rfl
    | some d =>
      show (if gridBlocked.is_blocked p ⟨p.x + d.1, p.y + d.2⟩ = true
          then none
          else match gridBlocked.get_traffic_level p
              ⟨p.x + d.1, p.y + d.2⟩ with
            | none => none
            | some t =>
              replaySteps gridBlocked rest ⟨p.x + d.1, p.y + d.2⟩
                (tot + t)) = none
      rfl

theorem gridBlocked_unreachable :
    ∀ (acts : List String) (c : Nat),
      ¬ReachesWithCost gridBlocked ⟨0, 0⟩ ⟨1, 0⟩ acts c := by
  intro acts c h
  unfold ReachesWithCost at h
  cases acts with
  | nil =>
    have := Option.some_inj.mp h
    injection this with h1 h2
    injection h1 with h3 h4
    cases h3
  | cons a rest =>
    rw [gridBlocked_no_step] at h
    cases h

/-- C8: on any grid where the customer is unreachable from the store (no
action sequence replays from start to goal), each complete strategy —
breadth-first, uniform-cost, A* (any heuristic number), and iterative
deepening — run with the explicit sufficient fuel searchFuel terminates and
returns the no-path sentinel (absent plan, infinite cost) with a positive
nodes-expanded count. -/
theorem c8_unreachable_nopath (g : Grid) (start goal : Pos) (h0 hnum : Nat)
    (hunreach : ∀ acts c, ¬ReachesWithCost g start goal acts c) :
    (∃ n, 0 < n ∧ breadth_first_search g goal (mkStartNode start goal h0)
        (searchFuel g start goal) = SearchResult.nopath n) ∧
    (∃ n, 0 < n ∧ uniform_cost_search g goal (mkStartNode start goal h0)
        (searchFuel g start goal) = SearchResult.nopath n) ∧
    (∃ n, 0 < n ∧ a_star_search g goal (mkStartNode start goal h0) hnum
        (searchFuel g start goal) = SearchResult.nopath n) ∧
    (∃ n, 0 < n ∧ iterative_deepening_search g goal
        (mkStartNode start goal h0) (searchFuel g start goal) =
        SearchResult.nopath n) := by
  have hne : start ≠ goal := by
    intro h
    exact hunreach [] 0 (by
      unfold ReachesWithCost
      subst h
      rfl)
  have hne2 : ¬((mkStartNode start goal h0).state.current_pos = goal) := hne
  have hstartOK : ∀ e ∈ [((mkStartNode start goal h0).path_cost,
      mkStartNode start goal h0)], NodeOK g start goal e.2 := by
    intro e he
    rcases List.mem_singleton.mp he with rfl
    exact nodeOK_start g start goal h0
  have hstartKey : skey (mkStartNode start goal h0).state ∈
      allKeys g start goal := List.mem_cons_self _ _
  refine ⟨?_, ?_, ?_, ?_⟩
  · unfold breadth_first_search
    rw [if_neg hne2]
    cases hres : bfsLoop g goal (searchFuel g start goal)
        [mkStartNode start goal h0] [] 0 with
    | found p c n =>
      exact absurd (bfsLoop_sound _ _ _ _
        (fun nd hnd => by
          rcases List.mem_singleton.mp hnd with rfl
          exact nodeOK_start g start goal h0) hres) (hunreach p c)
    | fuelOut =>
      refine absurd hres (@bfsLoop_no_fuelOut g start goal _ _ _ _ ?_
        List.nodup_nil (by simp) ?_)
      · intro nd hnd
        rcases List.mem_singleton.mp hnd with rfl
        exact hstartKey
      · unfold searchFuel
        simp only [List.length_singleton, List.length_nil, Nat.sub_zero]
        omega
    | nopath n =>
      have := (bfsLoop_nopath_ge _ _ _ _ _ hres).2 (by simp)
      exact ⟨n, by omega, rfl⟩
  · unfold uniform_cost_search
    rw [if_neg hne2]
    cases hres : bestFirstLoop g goal (fun _ => 0)
        (searchFuel g start goal)
        [((mkStartNode start goal h0).path_cost, mkStartNode start goal h0)]
        [] [(skey (mkStartNode start goal h0).state, 0)] 0 with
    | found p c n =>
      exact absurd (bestFirstLoop_sound _ _ _ _ _ hstartOK hres)
        (hunreach p c)
    | fuelOut =>
      refine absurd hres (@bestFirstLoop_no_fuelOut g start goal _ _ _ _
        _ _ ?_ List.nodup_nil (by simp) ?_)
      · intro e he
        rcases List.mem_singleton.mp he with rfl
        exact hstartKey
      · unfold searchFuel
        simp only [List.length_singleton, List.length_nil, Nat.sub_zero]
        omega
    | nopath n =>
      have := (bestFirstLoop_nopath_ge _ _ _ _ _ _ hres).2 (by simp)
      exact ⟨n, by omega, rfl⟩
  · unfold a_star_search
    rw [if_neg hne2]
    cases hres : bestFirstLoop g goal
        (heuristic_choice goal hnum) (searchFuel g start goal)
        [((mkStartNode start goal h0).path_cost +
            heuristic_choice goal hnum
              (mkStartNode start goal h0).state.current_pos,
          mkStartNode start goal h0)]
        [] [(skey (mkStartNode start goal h0).state,
          (mkStartNode start goal h0).path_cost)] 0 with
    | found p c n =>
      exact absurd (bestFirstLoop_sound _ _ _ _ _
        (fun e he => by
          rcases List.mem_singleton.mp he with rfl
          exact nodeOK_start g start goal h0) hres)
        (hunreach p c)
    | fuelOut =>
      refine absurd hres (@bestFirstLoop_no_fuelOut g start goal _ _ _ _
        _ _ ?_ List.nodup_nil (by simp) ?_)
      · intro e he
        rcases List.mem_singleton.mp he with rfl
        exact hstartKey
      · unfold searchFuel
        simp only [List.length_singleton, List.length_nil, Nat.sub_zero]
        omega
    | nopath n =>
      have := (bestFirstLoop_nopath_ge _ _ _ _ _ _ hres).2 (by simp)
      exact ⟨n, by omega, rfl⟩
  · have hdfs : ∀ d : Nat, ∃ nd, 1 ≤ nd ∧
        depth_first_search g goal (mkStartNode start goal h0) (some d)
          (searchFuel g start goal) = SearchResult.nopath nd := by
      intro d
      cases hres : depth_first_search g goal (mkStartNode start goal h0)
          (some d) (searchFuel g start goal) with
      | found p c n =>
        exact absurd (depth_first_sound hres) (hunreach p c)
      | fuelOut =>
        unfold depth_first_search at hres
        refine absurd hres (@dfsLoop_no_fuelOut g start goal _ _ _ _ _ ?_
          List.nodup_nil (by simp) ?_)
        · intro nd hnd
          rcases List.mem_singleton.mp hnd with rfl
          exact hstartKey
        · unfold searchFuel
          simp only [List.length_singleton, List.length_nil, Nat.sub_zero]
          omega
      | nopath n =>
        unfold depth_first_search at hres
        have := (dfsLoop_nopath_ge _ _ _ _ _ hres).2 (by simp)
        exact ⟨n, by omega, rfl⟩
    obtain ⟨m, hm1, hm2⟩ := idsLoop_nopath hdfs 1001 0 0 (by omega)
      (by omega)
    exact ⟨m, by omega, hm2⟩

/-- C8 witness: the concrete 2 x 1 grid with no traffic data, where the
customer at (1,0) is unreachable from the store at (0,0). -/
theorem c8_witness :
    (∀ acts c, ¬ReachesWithCost gridBlocked ⟨0, 0⟩ ⟨1, 0⟩ acts c) ∧
    ((∃ n, 0 < n ∧ breadth_first_search gridBlocked ⟨1, 0⟩
        (mkStartNode ⟨0, 0⟩ ⟨1, 0⟩ 0)
        (searchFuel gridBlocked ⟨0, 0⟩ ⟨1, 0⟩) = SearchResult.nopath n) ∧
      (∃ n, 0 < n ∧ uniform_cost_search gridBlocked ⟨1, 0⟩
        (mkStartNode ⟨0, 0⟩ ⟨1, 0⟩ 0)
        (searchFuel gridBlocked ⟨0, 0⟩ ⟨1, 0⟩) = SearchResult.nopath n) ∧
      (∃ n, 0 < n ∧ a_star_search gridBlocked ⟨1, 0⟩
        (mkStartNode ⟨0, 0⟩ ⟨1, 0⟩ 0) 1
        (searchFuel gridBlocked ⟨0, 0⟩ ⟨1, 0⟩) = SearchResult.nopath n) ∧
      (∃ n, 0 < n ∧ iterative_deepening_search gridBlocked ⟨1, 0⟩
        (mkStartNode ⟨0, 0⟩ ⟨1, 0⟩ 0)
        (searchFuel gridBlocked ⟨0, 0⟩ ⟨1, 0⟩) = SearchResult.nopath n)) :=
  ⟨gridBlocked_unreachable,
    c8_unreachable_nopath gridBlocked ⟨0, 0⟩ ⟨1, 0⟩ 0 1
      gridBlocked_unreachable⟩

theorem pq_pairwise_head {e : Nat × Node} {l : List (Nat × Node)}
    (hp : List.Pairwise (fun e1 e2 : Nat × Node => e1.1 ≤ e2.1) (e :: l)) :
    ∀ x ∈ e :: l, e.1 ≤ x.1 := by
  intro x hx
  rcases List.mem_cons.mp hx with rfl | hx2
  · exact Nat.le_refl _
  · exact (List.pairwise_cons.mp hp).1 x hx2

theorem pqInsert_pairwise {e : Nat × Node} :
    ∀ {l : List (Nat × Node)},
      List.Pairwise (fun e1 e2 : Nat × Node => e1.1 ≤ e2.1) l →
      List.Pairwise (fun e1 e2 : Nat × Node => e1.1 ≤ e2.1) (pqInsert e l) := by
  intro l
  induction l with
  | nil =>
    intro _
    simp [pqInsert]
  | cons q qs ih =>
    intro hp
    unfold pqInsert
    split
    · rename_i hlt
      refine List.pairwise_cons.mpr ⟨?_, hp⟩
      intro x hx
      rcases List.mem_cons.mp hx with rfl | hx2
      · omega
      · have := (List.pairwise_cons.mp hp).1 x hx2
        omega
    · rename_i hge
      refine List.pairwise_cons.mpr ⟨?_, ih (List.pairwise_cons.mp hp).2⟩
      intro x hx
      rcases mem_pqInsert.mp hx with rfl | hx2
      · omega
      · exact (List.pairwise_cons.mp hp).1 x hx2

theorem step_manhattan_le {g : Grid} {p : Pos} {a : String} {q : Pos}
    {c : Nat} (hstep : StepRel g p a q c) : manhattan p q ≤ c := by
  rcases hstep with ⟨_, _, hc⟩ | ⟨d, hmd, hq, _, hnb, htr⟩
  · omega
  · have hd4 : d = ((0 : Int), (-1 : Int)) ∨ d = ((0 : Int), (1 : Int)) ∨
        d = ((-1 : Int), (0 : Int)) ∨ d = ((1 : Int), (0 : Int)) := by
      unfold moveDelta at hmd
      split_ifs at hmd <;> simp_all
    have hc1 : c ≠ 0 := by
      intro h0
      subst h0
      unfold Grid.is_blocked at hnb
      rw [htr] at hnb
      simp at hnb
    have hm1 : manhattan p q = 1 := by
      subst hq
      rcases hd4 with rfl | rfl | rfl | rfl <;>
        (simp only [manhattan]; omega)
    omega

theorem manhattan_triangle (a b c : Pos) :
    manhattan a c ≤ manhattan a b + manhattan b c := by
  unfold manhattan
  omega

theorem diagonal_le_manhattan (p q : Pos) : diagonal p q ≤ manhattan p q := by
  unfold diagonal manhattan
  omega

theorem diagonal_triangle (a b c : Pos) :
    diagonal a c ≤ diagonal a b + diagonal b c := by
  unfold diagonal
  omega

theorem heuristic_choice_consistent {g : Grid} (goal : Pos) (hnum : Nat)
    {p : Pos} {a : String} {q : Pos} {c : Nat}
    (hstep : StepRel g p a q c) :
    heuristic_choice goal hnum p ≤ c + heuristic_choice goal hnum q := by
  have hm := step_manhattan_le hstep
  by_cases h1 : hnum = 1
  · simp only [heuristic_choice, if_pos h1]
    have := manhattan_triangle p q goal
    omega
  · by_cases h2 : hnum = 2
    · simp only [heuristic_choice, if_neg h1, if_pos h2]
      have ht := diagonal_triangle p q goal
      have hl := diagonal_le_manhattan p q
      omega
    · simp only [heuristic_choice, if_neg h1, if_neg h2]
      omega

theorem heuristic_choice_goal (goal : Pos) (hnum : Nat) :
    heuristic_choice goal hnum goal = 0 := by
  by_cases h1 : hnum = 1
  · simp only [heuristic_choice, if_pos h1]
    unfold manhattan
    omega
  · by_cases h2 : hnum = 2
    · simp only [heuristic_choice, if_neg h1, if_pos h2]
      unfold diagonal
      omega
    · simp only [heuristic_choice, if_neg h1, if_neg h2]

theorem h_telescope {g : Grid} (hwf : WFgrid g) {goal : Pos} {h : Pos → Nat}
    (hcons : ∀ p a q c, StepRel g p a q c → h p ≤ c + h q)
    (hgoal0 : h goal = 0) :
    ∀ (acts : List String) (p : Pos) (t w : Nat),
      replaySteps g acts p t = some (goal, w) → h p + t ≤ w := by
  intro acts
  induction acts with
  | nil =>
    intro p t w hrep
    simp only [replaySteps] at hrep
    have := Option.some_inj.mp hrep
    injection this with h1 h2
    subst h1
    rw [hgoal0]
    omega
  | cons a rest ih =>
    intro p t w hrep
    obtain ⟨q, c, hstep, hrep2⟩ := replay_cons_inv hwf hrep
    have hq := ih q (t + c) w hrep2
    have hp := hcons p a q c hstep
    omega

theorem replay_prefix_some {g : Grid} {l1 l2 : List String} {p : Pos}
    {t : Nat} {r : Pos × Nat}
    (h : replaySteps g (l1 ++ l2) p t = some r) :
    ∃ r1, replaySteps g l1 p t = some r1 ∧
      replaySteps g l2 r1.1 r1.2 = some r := by
  rw [replay_append] at h
  cases h1 : replaySteps g l1 p t with
  | none =>
    rw [h1, Option.none_bind] at h
    exact Option.noConfusion h
  | some r1 =>
    rw [h1, Option.some_bind] at h
    exact ⟨r1, rfl, h⟩

theorem relaxSuccs_fsub {h : Pos → Nat} {nd : Node} :
    ∀ (succs : List (DeliveryState × String × Nat))
      (frontier : List (Nat × Node)) (dmap : List ((Pos × Pos) × Nat)),
      ∀ e ∈ frontier, e ∈ (relaxSuccs h nd succs frontier dmap).1 := by
  intro succs
  induction succs with
  | nil =>
    intro frontier dmap e he
    exact he
  | cons sac rest ih =>
    intro frontier dmap e he
    obtain ⟨s, a, c⟩ := sac
    simp only [relaxSuccs]
    split
    · exact ih _ _ e (mem_pqInsert.mpr (Or.inr he))
    · exact ih _ _ e he

theorem relaxGate_lt {dmap : List ((Pos × Pos) × Nat)} {k : Pos × Pos}
    {nc old : Nat} (hl : alookup k dmap = some old)
    (hg : relaxGate dmap k nc = true) : nc < old := by
  unfold relaxGate at hg
  rw [hl] at hg
  exact of_decide_eq_true hg

theorem relaxGate_ge {dmap : List ((Pos × Pos) × Nat)} {k : Pos × Pos}
    {nc old : Nat} (hl : alookup k dmap = some old)
    (hg : relaxGate dmap k nc ≠ true) : old ≤ nc := by
  by_contra hlt
  apply hg
  unfold relaxGate
  rw [hl]
  exact decide_eq_true (by omega)

theorem relaxSuccs_dmono {h : Pos → Nat} {nd : Node} :
    ∀ (succs : List (DeliveryState × String × Nat))
      (frontier : List (Nat × Node)) (dmap : List ((Pos × Pos) × Nat))
      (k : Pos × Pos) (dv : Nat),
      alookup k dmap = some dv →
      ∃ dv2, alookup k (relaxSuccs h nd succs frontier dmap).2 = some dv2 ∧
        dv2 ≤ dv := by
  intro succs
  induction succs with
  | nil =>
    intro frontier dmap k dv hl
    exact ⟨dv, hl, Nat.le_refl _⟩
  | cons sac rest ih =>
    intro frontier dmap k dv hl
    obtain ⟨s, a, c⟩ := sac
    simp only [relaxSuccs]
    split
    · rename_i hgate
      by_cases hk : k = skey s
      · subst hk
        have hlt := relaxGate_lt hl hgate
        have hl2 : alookup (skey s)
            ((skey s, nd.path_cost + c) :: dmap) =
            some (nd.path_cost + c) := by
          simp [alookup]
        obtain ⟨dv2, h1, h2⟩ := ih _ _ (skey s) (nd.path_cost + c) hl2
        exact ⟨dv2, h1, by omega⟩
      · have hl2 : alookup k ((skey s, nd.path_cost + c) :: dmap) =
            some dv := by
          simp only [alookup, if_neg hk]
          exact hl
        exact ih _ _ k dv hl2
    · exact ih _ _ k dv hl

theorem relaxSuccs_freeze {h : Pos → Nat} {nd : Node} :
    ∀ (succs : List (DeliveryState × String × Nat))
      (frontier : List (Nat × Node)) (dmap : List ((Pos × Pos) × Nat))
      (k : Pos × Pos) (dv : Nat),
      alookup k dmap = some dv →
      (∀ s a c, (s, a, c) ∈ succs → skey s = k → dv ≤ nd.path_cost + c) →
      alookup k (relaxSuccs h nd succs frontier dmap).2 = some dv := by
  intro succs
  induction succs with
  | nil =>
    intro frontier dmap k dv hl _
    exact hl
  | cons sac rest ih =>
    intro frontier dmap k dv hl hbound
    obtain ⟨s, a, c⟩ := sac
    simp only [relaxSuccs]
    split
    · rename_i hgate
      by_cases hk : skey s = k
      · subst hk
        have hb := hbound s a c (List.mem_cons_self _ _) rfl
        have hlt := relaxGate_lt hl hgate
        omega
      · have hl2 : alookup k ((skey s, nd.path_cost + c) :: dmap) =
            some dv := by
          simp only [alookup]
          rw [if_neg (fun hh => hk hh.symm)]
          exact hl
        exact ih _ _ k dv hl2
          (fun s2 a2 c2 hm hk2 => hbound s2 a2 c2
            (List.mem_cons_of_mem _ hm) hk2)
    · exact ih _ _ k dv hl
        (fun s2 a2 c2 hm hk2 => hbound s2 a2 c2
          (List.mem_cons_of_mem _ hm) hk2)

theorem relaxSuccs_relaxed {h : Pos → Nat} {nd : Node} :
    ∀ (succs : List (DeliveryState × String × Nat))
      (frontier : List (Nat × Node)) (dmap : List ((Pos × Pos) × Nat))
      (s : DeliveryState) (a : String) (c : Nat),
      (s, a, c) ∈ succs →
      ∃ dq, alookup (skey s) (relaxSuccs h nd succs frontier dmap).2 =
          some dq ∧ dq ≤ nd.path_cost + c := by
  intro succs
  induction succs with
  | nil =>
    intro frontier dmap s a c hm
    cases hm
  | cons sac rest ih =>
    intro frontier dmap s a c hm
    obtain ⟨s0, a0, c0⟩ := sac
    rcases List.mem_cons.mp hm with heq | hm2
    · injection heq with hs hrest
      injection hrest with ha hc
      subst hs
      subst ha
      subst hc
      simp only [relaxSuccs]
      split
      · have hl2 : alookup (skey s)
            ((skey s, nd.path_cost + c) :: dmap) =
            some (nd.path_cost + c) := by
          simp [alookup]
        obtain ⟨dv2, h1, h2⟩ := relaxSuccs_dmono rest _ _ _ _ hl2
        exact ⟨dv2, h1, h2⟩
      · rename_i hgate
        cases hlo : alookup (skey s) dmap with
        | none =>
          exfalso
          apply hgate
          unfold relaxGate
          rw [hlo]
        | some old =>
          have hge := relaxGate_ge hlo hgate
          obtain ⟨dv2, h1, h2⟩ := relaxSuccs_dmono rest _ _ _ _ hlo
          exact ⟨dv2, h1, by omega⟩
    · simp only [relaxSuccs]
      split
      · exact ih _ _ s a c hm2
      · exact ih _ _ s a c hm2

theorem relaxSuccs_dsource {h : Pos → Nat} {nd : Node} :
    ∀ (succs : List (DeliveryState × String × Nat))
      (frontier : List (Nat × Node)) (dmap : List ((Pos × Pos) × Nat))
      (k : Pos × Pos) (dv : Nat),
      alookup k (relaxSuccs h nd succs frontier dmap).2 = some dv →
      alookup k dmap = some dv ∨
        ∃ e ∈ (relaxSuccs h nd succs frontier dmap).1,
          skey e.2.state = k ∧ e.2.path_cost = dv ∧
            e.1 = dv + h e.2.state.current_pos := by
  intro succs
  induction succs with
  | nil =>
    intro frontier dmap k dv hl
    exact Or.inl hl
  | cons sac rest ih =>
    intro frontier dmap k dv hl
    obtain ⟨s, a, c⟩ := sac
    simp only [relaxSuccs] at hl ⊢
    by_cases hgate : relaxGate dmap (skey s) (nd.path_cost + c) = true
    · rw [if_pos hgate] at hl ⊢
      rcases ih _ _ k dv hl with hold | hentry
      · by_cases hk : k = skey s
        · subst hk
          simp only [alookup, if_pos rfl] at hold
          have hnc := Option.some_inj.mp hold
          subst hnc
          refine Or.inr ⟨(nd.path_cost + c + h s.current_pos,
            ⟨s, nd.path ++ [a], nd.path_cost + c, nd.depth + 1,
              h s.current_pos⟩), ?_, rfl, rfl, rfl⟩
          exact relaxSuccs_fsub rest _ _ _
            (mem_pqInsert.mpr (Or.inl rfl))
        · simp only [alookup, if_neg hk] at hold
          exact Or.inl hold
      · exact Or.inr hentry
    · rw [if_neg hgate] at hl ⊢
      rcases ih _ _ k dv hl with hold | hentry
      · exact Or.inl hold
      · exact Or.inr hentry

theorem relaxSuccs_fsource {h : Pos → Nat} {nd : Node} :
    ∀ (succs : List (DeliveryState × String × Nat))
      (frontier : List (Nat × Node)) (dmap : List ((Pos × Pos) × Nat)),
      ∀ e ∈ (relaxSuccs h nd succs frontier dmap).1,
        e ∈ frontier ∨
          ∃ s a c, (s, a, c) ∈ succs ∧
            e = (nd.path_cost + c + h s.current_pos,
              ⟨s, nd.path ++ [a], nd.path_cost + c, nd.depth + 1,
                h s.current_pos⟩) := by
  intro succs
  induction succs with
  | nil =>
    intro frontier dmap e he
    exact Or.inl he
  | cons sac rest ih =>
    intro frontier dmap e he
    obtain ⟨s0, a0, c0⟩ := sac
    simp only [relaxSuccs] at he
    split at he
    · rcases ih _ _ e he with hf | ⟨s, a, c, hm, heq⟩
      · rcases mem_pqInsert.mp hf with rfl | hf2
        · exact Or.inr ⟨s0, a0, c0, List.mem_cons_self _ _, rfl⟩
        · exact Or.inl hf2
      · exact Or.inr ⟨s, a, c, List.mem_cons_of_mem _ hm, heq⟩
    · rcases ih _ _ e he with hf | ⟨s, a, c, hm, heq⟩
      · exact Or.inl hf
      · exact Or.inr ⟨s, a, c, List.mem_cons_of_mem _ hm, heq⟩

theorem relaxSuccs_sorted {h : Pos → Nat} {nd : Node} :
    ∀ (succs : List (DeliveryState × String × Nat))
      (frontier : List (Nat × Node)) (dmap : List ((Pos × Pos) × Nat)),
      List.Pairwise (fun e1 e2 : Nat × Node => e1.1 ≤ e2.1) frontier →
      List.Pairwise (fun e1 e2 : Nat × Node => e1.1 ≤ e2.1)
        (relaxSuccs h nd succs frontier dmap).1 := by
  intro succs
  induction succs with
  | nil =>
    intro frontier dmap hp
    exact hp
  | cons sac rest ih =>
    intro frontier dmap hp
    obtain ⟨s, a, c⟩ := sac
    simp only [relaxSuccs]
    split
    · exact ih _ _ (pqInsert_pairwise hp)
    · exact ih _ _ hp

theorem pq_climb {g : Grid} (hwf : WFgrid g) {start goal : Pos}
    {explored : List (Pos × Pos)} {dmap : List ((Pos × Pos) × Nat)}
    (hex : ∀ kk ∈ explored, kk.2 = goal ∧ kk.1 ≠ goal)
    (hcl : ∀ kk ∈ explored, ∀ dk, alookup kk dmap = some dk →
      ∀ a q c, StepRel g kk.1 a q c →
        ∃ dq, alookup (q, goal) dmap = some dq ∧ dq ≤ dk + c) :
    ∀ (m j : Nat) (acts : List String) (cst : Nat) (qj : Pos) (cj : Nat),
      acts.length - j ≤ m → j ≤ acts.length →
      replaySteps g acts start 0 = some (goal, cst) →
      replaySteps g (acts.take j) start 0 = some (qj, cj) →
      (∃ dj, alookup (qj, goal) dmap = some dj ∧ dj ≤ cj) →
      ∃ i qi ci, i ≤ acts.length ∧
        replaySteps g (acts.take i) start 0 = some (qi, ci) ∧
        (qi, goal) ∉ explored ∧
        ∃ dqi, alookup (qi, goal) dmap = some dqi ∧ dqi ≤ ci := by
  intro m
  induction m with
  | zero =>
    intro j acts cst qj cj hm hj hfull hpre hd
    by_cases hmem : (qj, goal) ∈ explored
    · exfalso
      have hne := (hex _ hmem).2
      have hjl : j = acts.length := by omega
      rw [hjl, List.take_length] at hpre
      rw [hfull] at hpre
      have := Option.some_inj.mp hpre
      injection this with h1 h2
      exact hne h1.symm
    · exact ⟨j, qj, cj, hj, hpre, hmem, hd⟩
  | succ m ih =>
    intro j acts cst qj cj hm hj hfull hpre hd
    by_cases hmem : (qj, goal) ∈ explored
    · have hne := (hex _ hmem).2
      have hjlt : j < acts.length := by
        rcases Nat.lt_or_ge j acts.length with hlt | hge
        · exact hlt
        · exfalso
          have hjl : j = acts.length := by omega
          rw [hjl, List.take_length] at hpre
          rw [hfull] at hpre
          have := Option.some_inj.mp hpre
          injection this with h1 h2
          exact hne h1.symm
      have hsome : acts[j]? = some acts[j] := List.getElem?_eq_getElem hjlt
      have htake : acts.take (j + 1) = acts.take j ++ [acts[j]] := by
        rw [List.take_succ, hsome]
        rfl
      have hdecomp : acts = acts.take (j + 1) ++ acts.drop (j + 1) :=
        (List.take_append_drop _ _).symm
      have hfull2 : replaySteps g (acts.take (j + 1) ++ acts.drop (j + 1))
          start 0 = some (goal, cst) := by
        rw [← hdecomp]
        exact hfull
      obtain ⟨r1, hr1, _⟩ := replay_prefix_some hfull2
      rw [htake] at hr1
      obtain ⟨r2, hr2, hr3⟩ := replay_prefix_some hr1
      rw [hpre] at hr2
      have hr2e := Option.some_inj.mp hr2
      subst hr2e
      obtain ⟨q2, c2, hstep0, hrep2⟩ := replay_cons_inv hwf hr3
      have hstep : StepRel g qj acts[j] q2 c2 := hstep0
      obtain ⟨dj, hdj, hdjle⟩ := hd
      obtain ⟨dq, hdq, hdqle⟩ := hcl (qj, goal) hmem dj hdj _ _ _ hstep
      refine ih (j + 1) acts cst q2 (cj + c2) (by omega) (by omega)
        hfull ?_ ⟨dq, hdq, by omega⟩
      rw [htake]
      rw [replay_append, hpre, Option.some_bind]
      show replaySteps g [acts[j]] qj cj = some (q2, cj + c2)
      rw [replay_cons_of_step hstep]
      rfl
    · exact ⟨j, qj, cj, hj, hpre, hmem, hd⟩

theorem pqinv_skip {g : Grid} {start goal : Pos} {h : Pos → Nat}
    {pr : Nat} {node : Node} {rest : List (Nat × Node)}
    {explored : List (Pos × Pos)} {dmap : List ((Pos × Pos) × Nat)}
    (hinv : PQInv g start goal h ((pr, node) :: rest) explored dmap)
    (hsk : skey node.state ∈ explored) :
    PQInv g start goal h rest explored dmap := by
  refine ⟨?_, ?_, hinv.exGoal, ?_, ?_, ?_, hinv.exClosed, hinv.cover⟩
  · intro e he
    exact hinv.entries e (List.mem_cons_of_mem _ he)
  · exact (List.pairwise_cons.mp hinv.sorted).2
  · intro kk hkk dv hdl
    obtain ⟨e, he, hke, hpe⟩ := hinv.dEntry kk hkk dv hdl
    rcases List.mem_cons.mp he with rfl | he2
    · exfalso
      have hke2 : skey node.state = kk := hke
      exact hkk (hke2 ▸ hsk)
    · exact ⟨e, he2, hke, hpe⟩
  · intro e he
    exact hinv.dLe e (List.mem_cons_of_mem _ he)
  · intro kk hkk
    obtain ⟨dk, hdl, hle⟩ := hinv.exLe kk hkk
    exact ⟨dk, hdl, fun e he => hle e (List.mem_cons_of_mem _ he)⟩

theorem pqinv_expand {g : Grid} {start goal : Pos} {h : Pos → Nat}
    (hwf : WFgrid g)
    (hcons : ∀ p a q c, StepRel g p a q c → h p ≤ c + h q)
    {pr : Nat} {node : Node} {rest : List (Nat × Node)}
    {explored : List (Pos × Pos)} {dmap : List ((Pos × Pos) × Nat)}
    (hinv : PQInv g start goal h ((pr, node) :: rest) explored dmap)
    (hg : node.state.current_pos ≠ goal)
    (hsk : skey node.state ∉ explored) :
    PQInv g start goal h
      (relaxSuccs h node (get_successors g goal node.state) rest dmap).1
      (skey node.state :: explored)
      (relaxSuccs h node (get_successors g goal node.state) rest dmap).2 := by
  obtain ⟨hnOK0, hprio0⟩ := hinv.entries (pr, node) (List.mem_cons_self _ _)
  have hnOK : NodeOK g start goal node := hnOK0
  have hprio : pr = node.path_cost + h node.state.current_pos := hprio0
  have htgt : node.state.target_pos = goal := hnOK.2.1
  have hmin : ∀ e ∈ (pr, node) :: rest, pr ≤ e.1 :=
    pq_pairwise_head hinv.sorted
  obtain ⟨d0, hld00, hd0le0⟩ := hinv.dLe (pr, node) (List.mem_cons_self _ _)
  have hld0 : alookup (skey node.state) dmap = some d0 := hld00
  have hd0le : d0 ≤ node.path_cost := hd0le0
  have hd0eq : d0 = node.path_cost := by
    obtain ⟨e', he', hke', hpe'⟩ := hinv.dEntry (skey node.state) hsk d0 hld0
    have hm' := hmin e' he'
    have hpr' := (hinv.entries e' he').2
    have hcur' : e'.2.state.current_pos = node.state.current_pos :=
      congrArg Prod.fst hke'
    rw [hcur', hpe'] at hpr'
    omega
  have hfreeze0 : alookup (skey node.state)
      (relaxSuccs h node (get_successors g goal node.state) rest dmap).2 =
      some node.path_cost := by
    refine relaxSuccs_freeze _ _ _ _ _ (hd0eq ▸ hld0) ?_
    intro s a c hm hk
    omega
  have hconss : ∀ s a c, (s, a, c) ∈ get_successors g goal node.state →
      h node.state.current_pos ≤ c + h s.current_pos :=
    fun s a c hm => hcons _ _ _ _ (succ_to_step hm).1
  have hfreezeE : ∀ kk ∈ explored, ∀ dk, alookup kk dmap = some dk →
      (∀ e ∈ (pr, node) :: rest, dk + h kk.1 ≤ e.1) →
      alookup kk
        (relaxSuccs h node (get_successors g goal node.state) rest dmap).2 =
        some dk := by
    intro kk hkk dk hdl hle
    refine relaxSuccs_freeze _ _ _ _ _ hdl ?_
    intro s a c hm hk
    have hb : dk + h kk.1 ≤ pr := hle (pr, node) (List.mem_cons_self _ _)
    have hc := hconss s a c hm
    have hcur : s.current_pos = kk.1 := congrArg Prod.fst hk
    rw [hcur] at hc
    omega
  have hexGoal' : ∀ kk ∈ skey node.state :: explored,
      kk.2 = goal ∧ kk.1 ≠ goal := by
    intro kk hkk
    rcases List.mem_cons.mp hkk with rfl | hkk2
    · exact ⟨htgt, hg⟩
    · exact hinv.exGoal kk hkk2
  have hexClosed' : ∀ kk ∈ skey node.state :: explored, ∀ dk,
      alookup kk
        (relaxSuccs h node (get_successors g goal node.state) rest dmap).2 =
        some dk →
      ∀ a q c, StepRel g kk.1 a q c →
        ∃ dq, alookup (q, goal)
            (relaxSuccs h node (get_successors g goal node.state) rest
              dmap).2 = some dq ∧ dq ≤ dk + c := by
    intro kk hkk dk hdk a q c hstep
    rcases List.mem_cons.mp hkk with rfl | hkk2
    · rw [hfreeze0] at hdk
      have hdke := Option.some_inj.mp hdk
      have hstep2 : StepRel g node.state.current_pos a q c := hstep
      have hmem := step_to_succ goal hstep2
      obtain ⟨dq, h1, h2⟩ := relaxSuccs_relaxed _ rest dmap _ a c hmem
      exact ⟨dq, h1, by omega⟩
    · obtain ⟨dk0, hdl0, hle0⟩ := hinv.exLe kk hkk2
      have hfro := hfreezeE kk hkk2 dk0 hdl0 hle0
      rw [hfro] at hdk
      have hdke := Option.some_inj.mp hdk
      subst hdke
      obtain ⟨dq, hdql, hdqle⟩ := hinv.exClosed kk hkk2 dk0 hdl0 a q c hstep
      obtain ⟨dq2, h1, h2⟩ := relaxSuccs_dmono _ rest dmap _ _ hdql
      exact ⟨dq2, h1, by omega⟩
  refine ⟨?_, ?_, hexGoal', ?_, ?_, ?_, hexClosed', ?_⟩
  · intro e he
    rcases relaxSuccs_fsource _ rest dmap e he with hf | ⟨s, a, c, hm, heq⟩
    · exact hinv.entries e (List.mem_cons_of_mem _ hf)
    · subst heq
      exact ⟨nodeOK_child hnOK hm _, rfl⟩
  · exact relaxSuccs_sorted _ rest dmap (List.pairwise_cons.mp hinv.sorted).2
  · intro kk hkk dv hdl
    have hkk1 : kk ≠ skey node.state :=
      fun hh => hkk (hh ▸ List.mem_cons_self _ _)
    have hkk2 : kk ∉ explored := fun hh => hkk (List.mem_cons_of_mem _ hh)
    rcases relaxSuccs_dsource _ rest dmap kk dv hdl with
      hold | ⟨e, he, h1, h2, h3⟩
    · obtain ⟨e, he, hke, hpe⟩ := hinv.dEntry kk hkk2 dv hold
      rcases List.mem_cons.mp he with rfl | he2
      · have hke2 : skey node.state = kk := hke
        exact absurd hke2.symm hkk1
      · exact ⟨e, relaxSuccs_fsub _ rest dmap e he2, hke, hpe⟩
    · exact ⟨e, he, h1, h2⟩
  · intro e he
    rcases relaxSuccs_fsource _ rest dmap e he with hf | ⟨s, a, c, hm, heq⟩
    · obtain ⟨dv, h1, h2⟩ := hinv.dLe e (List.mem_cons_of_mem _ hf)
      obtain ⟨dv2, h3, h4⟩ := relaxSuccs_dmono _ rest dmap _ dv h1
      exact ⟨dv2, h3, by omega⟩
    · subst heq
      obtain ⟨dq, h1, h2⟩ := relaxSuccs_relaxed _ rest dmap s a c hm
      exact ⟨dq, h1, h2⟩
  · intro kk hkk
    rcases List.mem_cons.mp hkk with rfl | hkk2
    · refine ⟨node.path_cost, hfreeze0, ?_⟩
      intro e he
      rcases relaxSuccs_fsource _ rest dmap e he with hf | ⟨s, a, c, hm, heq⟩
      · have hpe := hmin e (List.mem_cons_of_mem _ hf)
        show node.path_cost + h node.state.current_pos ≤ e.1
        omega
      · subst heq
        show node.path_cost + h node.state.current_pos ≤
          node.path_cost + c + h s.current_pos
        have := hconss s a c hm
        omega
    · obtain ⟨dk0, hdl0, hle0⟩ := hinv.exLe kk hkk2
      refine ⟨dk0, hfreezeE kk hkk2 dk0 hdl0 hle0, ?_⟩
      intro e he
      rcases relaxSuccs_fsource _ rest dmap e he with hf | ⟨s, a, c, hm, heq⟩
      · exact hle0 e (List.mem_cons_of_mem _ hf)
      · subst heq
        have h1 : dk0 + h kk.1 ≤ pr := hle0 (pr, node) (List.mem_cons_self _ _)
        have h2 := hconss s a c hm
        show dk0 + h kk.1 ≤ node.path_cost + c + h s.current_pos
        omega
  · intro acts cst hrep
    obtain ⟨i, qi, ci, hi, hrepi, _, dqi, hldi, hdile⟩ :=
      hinv.cover acts cst hrep
    obtain ⟨dqi2, hldi2, hle2⟩ := relaxSuccs_dmono _ rest dmap _ _ hldi
    exact pq_climb hwf hexGoal' hexClosed' (acts.length - i) i acts cst qi ci
      (by omega) hi hrep hrepi ⟨dqi2, hldi2, by omega⟩

theorem bestFirstLoop_minimal {g : Grid} {start goal : Pos} {h : Pos → Nat}
    (hwf : WFgrid g)
    (hcons : ∀ p a q c, StepRel g p a q c → h p ≤ c + h q)
    (hgoal0 : h goal = 0) :
    ∀ (fuel : Nat) (frontier : List (Nat × Node))
      (explored : List (Pos × Pos)) (dmap : List ((Pos × Pos) × Nat))
      (nodes : Nat),
      PQInv g start goal h frontier explored dmap →
      ∀ {p : List String} {c n : Nat},
        bestFirstLoop g goal h fuel frontier explored dmap nodes =
          SearchResult.found p c n →
        ∀ acts w, ReachesWithCost g start goal acts w → c ≤ w := by
  intro fuel
  induction fuel with
  | zero =>
    intro frontier explored dmap nodes _ p c n hres
    cases hres
  | succ f ih =>
    intro frontier explored dmap nodes hinv p c n hres
    cases frontier with
    | nil => cases hres
    | cons e rest =>
      obtain ⟨pr, node⟩ := e
      simp only [bestFirstLoop] at hres
      split at hres
      · rename_i hgg
        injection hres with h1 h2 h3
        subst h1
        subst h2
        intro acts w hreach
        obtain ⟨i, qi, ci, hi, hrepi, hni, dqi, hldi, hdile⟩ :=
          hinv.cover acts w hreach
        obtain ⟨e2, he2, hke2, hpe2⟩ := hinv.dEntry (qi, goal) hni dqi hldi
        have hprio2 := (hinv.entries e2 he2).2
        have hcur2 : e2.2.state.current_pos = qi := congrArg Prod.fst hke2
        rw [hcur2, hpe2] at hprio2
        have hmin : pr ≤ e2.1 := pq_pairwise_head hinv.sorted e2 he2
        have hprio0 : pr = node.path_cost + h node.state.current_pos :=
          (hinv.entries (pr, node) (List.mem_cons_self _ _)).2
        rw [hgg, hgoal0] at hprio0
        have hdecomp : replaySteps g (acts.take i ++ acts.drop i) start 0 =
            some (goal, w) := by
          rw [List.take_append_drop]
          exact hreach
        obtain ⟨r1, hr1, hr2⟩ := replay_prefix_some hdecomp
        rw [hrepi] at hr1
        have hr1e := Option.some_inj.mp hr1
        subst hr1e
        have hr2' : replaySteps g (acts.drop i) qi ci = some (goal, w) := hr2
        have htel := h_telescope hwf hcons hgoal0 (acts.drop i) qi ci w hr2'
        omega
      · split at hres
        · rename_i hgg hskk
          exact ih rest explored dmap (nodes + 1) (pqinv_skip hinv hskk) hres
        · rename_i hgg hskk
          exact ih _ _ _ _ (pqinv_expand hwf hcons hinv hgg hskk) hres

theorem bestFirstLoop_complete {g : Grid} {start goal : Pos} {h : Pos → Nat}
    (hwf : WFgrid g)
    (hcons : ∀ p a q c, StepRel g p a q c → h p ≤ c + h q) :
    ∀ (fuel : Nat) (frontier : List (Nat × Node))
      (explored : List (Pos × Pos)) (dmap : List ((Pos × Pos) × Nat))
      (nodes : Nat),
      PQInv g start goal h frontier explored dmap →
      ∀ {n : Nat},
        bestFirstLoop g goal h fuel frontier explored dmap nodes =
          SearchResult.nopath n →
        ∀ acts w, ¬ReachesWithCost g start goal acts w := by
  intro fuel
  induction fuel with
  | zero =>
    intro frontier explored dmap nodes _ n hres
    cases hres
  | succ f ih =>
    intro frontier explored dmap nodes hinv n hres
    cases frontier with
    | nil =>
      intro acts w hreach
      obtain ⟨i, qi, ci, hi, hrepi, hni, dqi, hldi, _⟩ :=
        hinv.cover acts w hreach
      obtain ⟨e2, he2, _, _⟩ := hinv.dEntry (qi, goal) hni dqi hldi
      exact absurd he2 (List.not_mem_nil _)
    | cons e rest =>
      obtain ⟨pr, node⟩ := e
      simp only [bestFirstLoop] at hres
      split at hres
      · cases hres
      · split at hres
        · rename_i hgg hskk
          exact ih rest explored dmap (nodes + 1) (pqinv_skip hinv hskk) hres
        · rename_i hgg hskk
          exact ih _ _ _ _ (pqinv_expand hwf hcons hinv hgg hskk) hres

theorem pqinv_initial (g : Grid) (start goal : Pos) (h : Pos → Nat)
    (h0 pr : Nat) (hpr : pr = 0 + h start) :
    PQInv g start goal h [(pr, mkStartNode start goal h0)] []
      [((start, goal), 0)] := by
  refine ⟨?_, ?_, ?_, ?_, ?_, ?_, ?_, ?_⟩
  · intro e he
    rcases List.mem_singleton.mp he with rfl
    refine ⟨nodeOK_start g start goal h0, ?_⟩
    show pr = 0 + h start
    exact hpr
  · exact List.pairwise_singleton _ _
  · intro kk hkk
    exact absurd hkk (List.not_mem_nil _)
  · intro kk hkk dv hdl
    by_cases hk : kk = (start, goal)
    · subst hk
      simp only [alookup, if_pos rfl] at hdl
      have hdv := Option.some_inj.mp hdl
      refine ⟨(pr, mkStartNode start goal h0),
        List.mem_singleton.mpr rfl, rfl, ?_⟩
      show (0 : Nat) = dv
      exact hdv
    · simp only [alookup, if_neg hk] at hdl
      exact Option.noConfusion hdl
  · intro e he
    rcases List.mem_singleton.mp he with rfl
    refine ⟨0, ?_, Nat.zero_le _⟩
    show alookup ((start, goal) : Pos × Pos) [((start, goal), 0)] = some 0
    simp [alookup]
  · intro kk hkk
    exact absurd hkk (List.not_mem_nil _)
  · intro kk hkk
    exact absurd hkk (List.not_mem_nil _)
  · intro acts cst hrep
    refine ⟨0, start, 0, Nat.zero_le _, rfl, List.not_mem_nil _, 0, ?_,
      Nat.le_refl 0⟩
    simp [alookup]

theorem uniform_cost_minimal {g : Grid} {start goal : Pos}
    (hwf : WFgrid g) {h0 fuel : Nat} {p : List String} {c n : Nat}
    (hres : uniform_cost_search g goal (mkStartNode start goal h0) fuel =
      SearchResult.found p c n) :
    ∀ acts w, ReachesWithCost g start goal acts w → c ≤ w := by
  unfold uniform_cost_search at hres
  split at hres
  · injection hres with h1 h2 h3
    subst h2
    intro acts w _
    exact Nat.zero_le w
  · refine bestFirstLoop_minimal hwf (fun p2 a q c2 _ => Nat.zero_le _) rfl
      fuel _ _ _ 0 ?_ hres
    exact pqinv_initial g start goal (fun _ => 0) h0 _ rfl

theorem uniform_cost_complete {g : Grid} {start goal : Pos}
    (hwf : WFgrid g) {h0 fuel n : Nat}
    (hres : uniform_cost_search g goal (mkStartNode start goal h0) fuel =
      SearchResult.nopath n) :
    ∀ acts w, ¬ReachesWithCost g start goal acts w := by
  unfold uniform_cost_search at hres
  split at hres
  · cases hres
  · refine bestFirstLoop_complete hwf (fun p2 a q c2 _ => Nat.zero_le _)
      fuel _ _ _ 0 ?_ hres
    exact pqinv_initial g start goal (fun _ => 0) h0 _ rfl

theorem a_star_minimal {g : Grid} {start goal : Pos}
    (hwf : WFgrid g) {h0 hnum fuel : Nat} {p : List String} {c n : Nat}
    (hres : a_star_search g goal (mkStartNode start goal h0) hnum fuel =
      SearchResult.found p c n) :
    ∀ acts w, ReachesWithCost g start goal acts w → c ≤ w := by
  unfold a_star_search at hres
  split at hres
  · injection hres with h1 h2 h3
    subst h2
    intro acts w _
    exact Nat.zero_le w
  · refine bestFirstLoop_minimal hwf
      (fun p2 a q c2 hs => heuristic_choice_consistent goal hnum hs)
      (heuristic_choice_goal goal hnum) fuel _ _ _ 0 ?_ hres
    exact pqinv_initial g start goal (heuristic_choice goal hnum) h0 _ rfl

/-- C1: on a well-formed grid, whenever uniform-cost search (strategy UC)
and A* with the Manhattan heuristic (AS1) or the diagonal heuristic (AS2)
both find a path for the same (store, customer) pair, the total cost
returned by the A* run equals the total cost returned by uniform-cost
search. -/
theorem c1_astar_cost_equals_ucs (g : Grid) (start goal : Pos)
    (h0 h1 hnum fuel1 fuel2 : Nat) (hwf : WFgrid g)
    (hnum12 : hnum = 1 ∨ hnum = 2)
    (p1 p2 : List String) (c1 c2 n1 n2 : Nat)
    (hu : uniform_cost_search g goal (mkStartNode start goal h0) fuel1 =
      SearchResult.found p1 c1 n1)
    (ha : a_star_search g goal (mkStartNode start goal h1) hnum fuel2 =
      SearchResult.found p2 c2 n2) :
    c1 = c2 :=
  Nat.le_antisymm
    (uniform_cost_minimal hwf hu p2 c2 (a_star_sound ha))
    (a_star_minimal hwf ha p1 c1 (uniform_cost_sound hu))

/-- C1 witness: on the 2 x 1 grid with one open edge, UC and AS1 both find
the plan ["right"], and the theorem instantiates to equal costs 1 = 1. -/
theorem c1_witness :
    WFgrid gridTwo ∧ ((1 : Nat) = 1 ∨ (1 : Nat) = 2) ∧
    uniform_cost_search gridTwo ⟨1, 0⟩ (mkStartNode ⟨0, 0⟩ ⟨1, 0⟩ 0)
      (searchFuel gridTwo ⟨0, 0⟩ ⟨1, 0⟩) =
      SearchResult.found ["right"] 1 2 ∧
    a_star_search gridTwo ⟨1, 0⟩ (mkStartNode ⟨0, 0⟩ ⟨1, 0⟩ 1) 1
      (searchFuel gridTwo ⟨0, 0⟩ ⟨1, 0⟩) =
      SearchResult.found ["right"] 1 2 ∧
    (1 : Nat) = 1 :=
  ⟨by decide, Or.inl rfl, by decide, by decide,
    c1_astar_cost_equals_ucs gridTwo ⟨0, 0⟩ ⟨1, 0⟩ 0 1 1
      (searchFuel gridTwo ⟨0, 0⟩ ⟨1, 0⟩)
      (searchFuel gridTwo ⟨0, 0⟩ ⟨1, 0⟩) (by decide) (Or.inl rfl)
      ["right"] ["right"] 1 1 2 2 (by decide) (by decide)⟩

/-- C2: on a well-formed grid, when at least one valid action sequence
reaches the customer from the store, uniform-cost search run with the
sufficient fuel bound finds a plan; the plan replays from the start to the
goal at exactly the returned cost, and that cost is minimal among all
valid action sequences from start to goal. -/
theorem c2_ucs_returns_minimal_cost (g : Grid) (start goal : Pos)
    (h0 : Nat) (hwf : WFgrid g)
    (hex : ∃ acts w, ReachesWithCost g start goal acts w) :
    ∃ p c n, uniform_cost_search g goal (mkStartNode start goal h0)
        (searchFuel g start goal) = SearchResult.found p c n ∧
      ReachesWithCost g start goal p c ∧
      ∀ acts w, ReachesWithCost g start goal acts w → c ≤ w := by
  cases hres : uniform_cost_search g goal (mkStartNode start goal h0)
      (searchFuel g start goal) with
  | found p c n =>
    exact ⟨p, c, n, rfl, uniform_cost_sound hres,
      uniform_cost_minimal hwf hres⟩
  | nopath n =>
    obtain ⟨acts, w, hr⟩ := hex
    exact absurd hr (uniform_cost_complete hwf hres acts w)
  | fuelOut =>
    exfalso
    unfold uniform_cost_search at hres
    split at hres
    · cases hres
    · refine (@bestFirstLoop_no_fuelOut g start goal _ _ _ _ _ _ ?_
        List.nodup_nil (by simp) ?_) hres
      · intro e he
        rcases List.mem_singleton.mp he with rfl
        exact List.mem_cons_self _ _
      · unfold searchFuel
        simp only [List.length_singleton, List.length_nil, Nat.sub_zero]
        omega

/-- C2 witness: on the 2 x 1 grid with one open edge, ["right"] is a valid
plan of cost 1, so UC finds a plan that is sound and cost-minimal. -/
theorem c2_witness :
    WFgrid gridTwo ∧
    (∃ acts w, ReachesWithCost gridTwo ⟨0, 0⟩ ⟨1, 0⟩ acts w) ∧
    ∃ p c n, uniform_cost_search gridTwo ⟨1, 0⟩
        (mkStartNode ⟨0, 0⟩ ⟨1, 0⟩ 0)
        (searchFuel gridTwo ⟨0, 0⟩ ⟨1, 0⟩) = SearchResult.found p c n ∧
      ReachesWithCost gridTwo ⟨0, 0⟩ ⟨1, 0⟩ p c ∧
      ∀ acts w, ReachesWithCost gridTwo ⟨0, 0⟩ ⟨1, 0⟩ acts w → c ≤ w := by
  have hr : ReachesWithCost gridTwo ⟨0, 0⟩ ⟨1, 0⟩ ["right"] 1 := by
    show replaySteps gridTwo ["right"] ⟨0, 0⟩ 0 = some (⟨1, 0⟩, 1)
    decide
  exact ⟨by decide, ⟨["right"], 1, hr⟩,
    c2_ucs_returns_minimal_cost gridTwo ⟨0, 0⟩ ⟨1, 0⟩ 0 (by decide)
      ⟨["right"], 1, hr⟩⟩

theorem bfsExpand_inl_shape {g : Grid} {goal : Pos} {node : Node} :
    ∀ (succs : List (DeliveryState × String × Nat))
      (frontier : List Node) (explored : List (Pos × Pos))
      {frontier2 : List Node},
      bfsExpand g goal node succs frontier explored = Sum.inl frontier2 →
      ∃ chl, frontier2 = frontier ++ chl ∧
        ∀ nd ∈ chl, ∃ s2 a cc, (s2, a, cc) ∈ succs ∧
          nd = ⟨s2, node.path ++ [a], node.path_cost + cc,
            node.depth + 1, 0⟩ ∧
          s2.current_pos ≠ goal ∧ skey s2 ∉ explored := by
  intro succs
  induction succs with
  | nil =>
    intro frontier explored frontier2 h
    injection h with h2
    refine ⟨[], by simp [← h2], ?_⟩
    intro nd hnd
    exact absurd hnd (List.not_mem_nil _)
  | cons sac rest ih =>
    intro frontier explored frontier2 h
    obtain ⟨s, a, cc⟩ := sac
    simp only [bfsExpand] at h
    split at h
    · obtain ⟨chl, hf, hch⟩ := ih _ _ h
      refine ⟨chl, hf, ?_⟩
      intro nd hnd
      obtain ⟨s2, a2, cc2, hm, hnd2, hg2, hnx⟩ := hch nd hnd
      exact ⟨s2, a2, cc2, List.mem_cons_of_mem _ hm, hnd2, hg2, hnx⟩
    · rename_i hsk
      split at h
      · cases h
      · rename_i hg
        obtain ⟨chl, hf, hch⟩ := ih _ _ h
        refine ⟨⟨s, node.path ++ [a], node.path_cost + cc,
          node.depth + 1, 0⟩ :: chl, ?_, ?_⟩
        · rw [hf]
          simp
        · intro nd hnd
          rcases List.mem_cons.mp hnd with rfl | hnd2
          · exact ⟨s, a, cc, List.mem_cons_self _ _, rfl, hg, hsk⟩
          · obtain ⟨s2, a2, cc2, hm, hnd2, hg2, hnx⟩ := hch nd hnd2
            exact ⟨s2, a2, cc2, List.mem_cons_of_mem _ hm, hnd2, hg2, hnx⟩

theorem bfsExpand_inl_sub {g : Grid} {goal : Pos} {node : Node}
    {succs : List (DeliveryState × String × Nat)}
    {frontier : List Node} {explored : List (Pos × Pos)}
    {frontier2 : List Node}
    (h : bfsExpand g goal node succs frontier explored =
      Sum.inl frontier2) :
    ∀ nd ∈ frontier, nd ∈ frontier2 := by
  obtain ⟨chl, hf, _⟩ := bfsExpand_inl_shape _ _ _ h
  rw [hf]
  exact fun nd hnd => List.mem_append_left _ hnd

theorem bfsExpand_inl_covers {g : Grid} {goal : Pos} {node : Node} :
    ∀ (succs : List (DeliveryState × String × Nat))
      (frontier : List Node) (explored : List (Pos × Pos))
      {frontier2 : List Node},
      bfsExpand g goal node succs frontier explored = Sum.inl frontier2 →
      ∀ s2 a cc, (s2, a, cc) ∈ succs →
        skey s2 ∈ explored ∨
          (s2.current_pos ≠ goal ∧
            (⟨s2, node.path ++ [a], node.path_cost + cc,
              node.depth + 1, 0⟩ : Node) ∈ frontier2) := by
  intro succs
  induction succs with
  | nil =>
    intro _ _ _ h s2 a cc hm
    cases hm
  | cons sac rest ih =>
    intro frontier explored frontier2 h s2 a cc hm
    obtain ⟨s0, a0, cc0⟩ := sac
    simp only [bfsExpand] at h
    rcases List.mem_cons.mp hm with heq | hm2
    · injection heq with hs hrest
      injection hrest with ha hc
      subst hs
      subst ha
      subst hc
      split at h
      · exact Or.inl (by assumption)
      · rename_i hsk
        split at h
        · cases h
        · rename_i hg
          refine Or.inr ⟨hg, ?_⟩
          exact bfsExpand_inl_sub h _
            (List.mem_append_right _ (List.mem_singleton.mpr rfl))
    · split at h
      · exact ih _ _ h s2 a cc hm2
      · split at h
        · cases h
        · exact ih _ _ h s2 a cc hm2

theorem bfs_pairwise_head {nd : Node} {l : List Node}
    (hp : List.Pairwise (fun n1 n2 : Node => n1.depth ≤ n2.depth)
      (nd :: l)) :
    ∀ x ∈ nd :: l, nd.depth ≤ x.depth := by
  intro x hx
  rcases List.mem_cons.mp hx with rfl | hx2
  · exact Nat.le_refl _
  · exact (List.pairwise_cons.mp hp).1 x hx2

theorem bfs_climb {g : Grid} (hwf : WFgrid g) {start goal : Pos}
    {frontier : List Node} {explored : List (Pos × Pos)}
    {ed : List ((Pos × Pos) × Nat)}
    (hexGoal : ∀ kk ∈ explored, kk.2 = goal ∧ kk.1 ≠ goal)
    (hedMem : ∀ kk d, alookup kk ed = some d → kk ∈ explored)
    (hclosed : ∀ kk d, alookup kk ed = some d →
      ∀ a q c, StepRel g kk.1 a q c →
        (∃ d2, alookup (q, goal) ed = some d2 ∧ d2 ≤ d + 1) ∨
        ∃ nd ∈ frontier, nd.state.current_pos = q ∧ nd.depth ≤ d + 1) :
    ∀ (m j : Nat) (acts : List String) (cst : Nat) (qj : Pos) (cj dj : Nat),
      acts.length - j ≤ m → j ≤ acts.length →
      replaySteps g acts start 0 = some (goal, cst) →
      replaySteps g (acts.take j) start 0 = some (qj, cj) →
      alookup (qj, goal) ed = some dj → dj ≤ j →
      ∃ i qi ci, i ≤ acts.length ∧
        replaySteps g (acts.take i) start 0 = some (qi, ci) ∧
        ∃ nd ∈ frontier, nd.state.current_pos = qi ∧ nd.depth ≤ i := by
  intro m
  induction m with
  | zero =>
    intro j acts cst qj cj dj hm hj hfull hpre hdl hdj
    exfalso
    have hmem := hedMem _ _ hdl
    have hne := (hexGoal _ hmem).2
    have hjl : j = acts.length := by omega
    rw [hjl, List.take_length] at hpre
    rw [hfull] at hpre
    have := Option.some_inj.mp hpre
    injection this with h1 h2
    exact hne h1.symm
  | succ m ih =>
    intro j acts cst qj cj dj hm hj hfull hpre hdl hdj
    have hmem := hedMem _ _ hdl
    have hne : qj ≠ goal := (hexGoal _ hmem).2
    have hjlt : j < acts.length := by
      rcases Nat.lt_or_ge j acts.length with hlt | hge
      · exact hlt
      · exfalso
        have hjl : j = acts.length := by omega
        rw [hjl, List.take_length] at hpre
        rw [hfull] at hpre
        have := Option.some_inj.mp hpre
        injection this with h1 h2
        exact hne h1.symm
    have hsome : acts[j]? = some acts[j] := List.getElem?_eq_getElem hjlt
    have htake : acts.take (j + 1) = acts.take j ++ [acts[j]] := by
      rw [List.take_succ, hsome]
      rfl
    have hdecomp : acts = acts.take (j + 1) ++ acts.drop (j + 1) :=
      (List.take_append_drop _ _).symm
    have hfull2 : replaySteps g (acts.take (j + 1) ++ acts.drop (j + 1))
        start 0 = some (goal, cst) := by
      rw [← hdecomp]
      exact hfull
    obtain ⟨r1, hr1, _⟩ := replay_prefix_some hfull2
    rw [htake] at hr1
    obtain ⟨r2, hr2, hr3⟩ := replay_prefix_some hr1
    rw [hpre] at hr2
    have hr2e := Option.some_inj.mp hr2
    subst hr2e
    obtain ⟨q2, c2, hstep0, _⟩ := replay_cons_inv hwf hr3
    have hstep : StepRel g qj acts[j] q2 c2 := hstep0
    have hpre2 : replaySteps g (acts.take (j + 1)) start 0 =
        some (q2, cj + c2) := by
      rw [htake]
      rw [replay_append, hpre, Option.some_bind]
      show replaySteps g [acts[j]] qj cj = some (q2, cj + c2)
      rw [replay_cons_of_step hstep]
      rfl
    rcases hclosed (qj, goal) dj hdl acts[j] q2 c2 hstep with
      ⟨d2, hl2, hle2⟩ | ⟨nd, hnd, hq, hdep⟩
    · exact ih (j + 1) acts cst q2 (cj + c2) d2 (by omega) (by omega)
        hfull hpre2 hl2 (by omega)
    · exact ⟨j + 1, q2, cj + c2, by omega, hpre2, nd, hnd, hq, by omega⟩

theorem bfsinv_skip {g : Grid} (hwf : WFgrid g) {start goal : Pos}
    {node : Node} {rest : List Node} {explored : List (Pos × Pos)}
    {ed : List ((Pos × Pos) × Nat)}
    (hinv : BFSInv g start goal (node :: rest) explored ed)
    (hsk : skey node.state ∈ explored) :
    BFSInv g start goal rest explored ed := by
  have hkey : skey node.state = (node.state.current_pos, goal) := by
    have htgt := (hinv.entries node (List.mem_cons_self _ _)).1.2.1
    show (node.state.current_pos, node.state.target_pos) = _
    rw [htgt]
  have hclosed' : ∀ kk d, alookup kk ed = some d →
      ∀ a q c, StepRel g kk.1 a q c →
        (∃ d2, alookup (q, goal) ed = some d2 ∧ d2 ≤ d + 1) ∨
        ∃ nd ∈ rest, nd.state.current_pos = q ∧ nd.depth ≤ d + 1 := by
    intro kk d hdl a q c hstep
    rcases hinv.edClosed kk d hdl a q c hstep with hin | ⟨nd, hnd, hq, hdep⟩
    · exact Or.inl hin
    · rcases List.mem_cons.mp hnd with heqn | hnd2
      · left
        rw [heqn] at hq hdep
        have hqk : ((q, goal) : Pos × Pos) = skey node.state := by
          rw [hkey, hq]
        obtain ⟨d2, hd2⟩ := hinv.exEd (q, goal) (hqk ▸ hsk)
        have hle := hinv.edLe _ _ hd2 node (List.mem_cons_self _ _)
        exact ⟨d2, hd2, by omega⟩
      · exact Or.inr ⟨nd, hnd2, hq, hdep⟩
  refine ⟨?_, ?_, ?_, hinv.exGoal, hinv.exEd, hinv.edMem, ?_, hclosed', ?_⟩
  · intro nd hnd
    exact hinv.entries nd (List.mem_cons_of_mem _ hnd)
  · exact (List.pairwise_cons.mp hinv.sorted).2
  · intro n1 h1 n2 h2
    exact hinv.gap n1 (List.mem_cons_of_mem _ h1) n2
      (List.mem_cons_of_mem _ h2)
  · intro kk d hdl nd hnd
    exact hinv.edLe kk d hdl nd (List.mem_cons_of_mem _ hnd)
  · intro acts cst hrep
    obtain ⟨i, qi, ci, hi, hrepi, nd, hnd, hq, hdep⟩ :=
      hinv.cover acts cst hrep
    rcases List.mem_cons.mp hnd with heqn | hnd2
    · rw [heqn] at hq hdep
      have hqk : ((qi, goal) : Pos × Pos) = skey node.state := by
        rw [hkey, hq]
      obtain ⟨d2, hd2⟩ := hinv.exEd (qi, goal) (hqk ▸ hsk)
      have hle := hinv.edLe _ _ hd2 node (List.mem_cons_self _ _)
      exact bfs_climb hwf hinv.exGoal hinv.edMem hclosed'
        (acts.length - i) i acts cst qi ci d2 (by omega) hi hrep hrepi hd2
        (by omega)
    · exact ⟨i, qi, ci, hi, hrepi, nd, hnd2, hq, hdep⟩

theorem bfsinv_expand {g : Grid} (hwf : WFgrid g) {start goal : Pos}
    {node : Node} {rest : List Node} {explored : List (Pos × Pos)}
    {ed : List ((Pos × Pos) × Nat)} {frontier2 : List Node}
    (hinv : BFSInv g start goal (node :: rest) explored ed)
    (hsk : skey node.state ∉ explored)
    (hexp : bfsExpand g goal node (get_successors g goal node.state) rest
      (skey node.state :: explored) = Sum.inl frontier2) :
    BFSInv g start goal frontier2 (skey node.state :: explored)
      ((skey node.state, node.depth) :: ed) := by
  obtain ⟨hnOK0, hgg⟩ := hinv.entries node (List.mem_cons_self _ _)
  have hnOK : NodeOK g start goal node := hnOK0
  have htgt : node.state.target_pos = goal := hnOK.2.1
  have hkey : skey node.state = (node.state.current_pos, goal) := by
    show (node.state.current_pos, node.state.target_pos) = _
    rw [htgt]
  obtain ⟨chl, hf2, hch⟩ := bfsExpand_inl_shape _ _ _ hexp
  have hchd : ∀ nd ∈ chl, nd.depth = node.depth + 1 := by
    intro nd hnd
    obtain ⟨s2, a2, cc2, _, hnd2, _, _⟩ := hch nd hnd
    rw [hnd2]
  have hheadmin := bfs_pairwise_head hinv.sorted
  have hmem2 : ∀ nd ∈ frontier2, nd ∈ rest ∨ nd ∈ chl := by
    intro nd hnd
    rw [hf2] at hnd
    exact List.mem_append.mp hnd
  have hlk0 : alookup (skey node.state)
      ((skey node.state, node.depth) :: ed) = some node.depth := by
    simp [alookup]
  have hlkne : ∀ kk : Pos × Pos, kk ≠ skey node.state →
      alookup kk ((skey node.state, node.depth) :: ed) = alookup kk ed := by
    intro kk hne
    simp only [alookup, if_neg hne]
  have hexGoal' : ∀ kk ∈ skey node.state :: explored,
      kk.2 = goal ∧ kk.1 ≠ goal := by
    intro kk hkk
    rcases List.mem_cons.mp hkk with rfl | hkk2
    · rw [hkey]
      exact ⟨rfl, hgg⟩
    · exact hinv.exGoal kk hkk2
  have hedMem' : ∀ kk d,
      alookup kk ((skey node.state, node.depth) :: ed) = some d →
      kk ∈ skey node.state :: explored := by
    intro kk d hdl
    by_cases hne : kk = skey node.state
    · rw [hne]
      exact List.mem_cons_self _ _
    · rw [hlkne kk hne] at hdl
      exact List.mem_cons_of_mem _ (hinv.edMem kk d hdl)
  have hedClosed' : ∀ kk d,
      alookup kk ((skey node.state, node.depth) :: ed) = some d →
      ∀ a q c, StepRel g kk.1 a q c →
        (∃ d2, alookup (q, goal) ((skey node.state, node.depth) :: ed) =
          some d2 ∧ d2 ≤ d + 1) ∨
        ∃ nd ∈ frontier2, nd.state.current_pos = q ∧ nd.depth ≤ d + 1 := by
    intro kk d hdl a q c hstep
    by_cases hne : kk = skey node.state
    · subst hne
      rw [hlk0] at hdl
      have hde := Option.some_inj.mp hdl
      have hstep2 : StepRel g node.state.current_pos a q c := hstep
      have hmem := step_to_succ goal hstep2
      have hcov := bfsExpand_inl_covers _ _ _ hexp _ a c hmem
      rcases hcov with hin | ⟨hg2, hchmem⟩
      · have hin2 : ((q, goal) : Pos × Pos) ∈ skey node.state :: explored :=
          hin
        rcases List.mem_cons.mp hin2 with heq | hin3
        · left
          refine ⟨node.depth, ?_, by omega⟩
          rw [heq]
          exact hlk0
        · left
          obtain ⟨d2, hd2⟩ := hinv.exEd _ hin3
          have hle := hinv.edLe _ _ hd2 node (List.mem_cons_self _ _)
          have hneq : ((q, goal) : Pos × Pos) ≠ skey node.state :=
            fun hh => hsk (hh ▸ hin3)
          refine ⟨d2, ?_, by omega⟩
          rw [hlkne _ hneq]
          exact hd2
      · right
        refine ⟨⟨⟨q, goal, node.state.cost_so_far + c⟩, node.path ++ [a],
          node.path_cost + c, node.depth + 1, 0⟩, hchmem, rfl, ?_⟩
        show node.depth + 1 ≤ d + 1
        omega
    · rw [hlkne kk hne] at hdl
      rcases hinv.edClosed kk d hdl a q c hstep with
        ⟨d2, hl2, hle2⟩ | ⟨nd, hnd, hq, hdep⟩
      · left
        have hne2 : ((q, goal) : Pos × Pos) ≠ skey node.state := by
          intro hh
          exact hsk (hh ▸ hinv.edMem _ _ hl2)
        refine ⟨d2, ?_, hle2⟩
        rw [hlkne _ hne2]
        exact hl2
      · rcases List.mem_cons.mp hnd with heqn | hnd2
        · left
          rw [heqn] at hq hdep
          have hqk : ((q, goal) : Pos × Pos) = skey node.state := by
            rw [hkey, hq]
          refine ⟨node.depth, ?_, hdep⟩
          rw [hqk]
          exact hlk0
        · right
          refine ⟨nd, ?_, hq, hdep⟩
          rw [hf2]
          exact List.mem_append_left _ hnd2
  refine ⟨?_, ?_, ?_, hexGoal', ?_, hedMem', ?_, hedClosed', ?_⟩
  · intro nd hnd
    rcases hmem2 nd hnd with hr | hc
    · exact hinv.entries nd (List.mem_cons_of_mem _ hr)
    · obtain ⟨s2, a2, cc2, hm, hnd2, hg2, _⟩ := hch nd hc
      subst hnd2
      exact ⟨nodeOK_child hnOK hm _, hg2⟩
  · rw [hf2]
    refine List.pairwise_append.mpr
      ⟨(List.pairwise_cons.mp hinv.sorted).2, ?_, ?_⟩
    · refine List.pairwise_of_forall_mem_list ?_
      intro a ha b hb
      rw [hchd a ha, hchd b hb]
    · intro a ha b hb
      have := hinv.gap a (List.mem_cons_of_mem _ ha) node
        (List.mem_cons_self _ _)
      rw [hchd b hb]
      omega
  · intro n1 h1 n2 h2
    rcases hmem2 n1 h1 with hr1 | hc1 <;> rcases hmem2 n2 h2 with hr2 | hc2
    · exact hinv.gap n1 (List.mem_cons_of_mem _ hr1) n2
        (List.mem_cons_of_mem _ hr2)
    · have := hinv.gap n1 (List.mem_cons_of_mem _ hr1) node
        (List.mem_cons_self _ _)
      rw [hchd n2 hc2]
      omega
    · have := hheadmin n2 (List.mem_cons_of_mem _ hr2)
      rw [hchd n1 hc1]
      omega
    · rw [hchd n1 hc1, hchd n2 hc2]
      omega
  · intro kk hkk
    rcases List.mem_cons.mp hkk with rfl | hkk2
    · exact ⟨node.depth, hlk0⟩
    · by_cases hne : kk = skey node.state
      · refine ⟨node.depth, ?_⟩
        rw [hne]
        exact hlk0
      · obtain ⟨d, hd⟩ := hinv.exEd kk hkk2
        exact ⟨d, (hlkne kk hne).trans hd⟩
  · intro kk d hdl nd hnd
    by_cases hne : kk = skey node.state
    · rw [hne, hlk0] at hdl
      have hde := Option.some_inj.mp hdl
      rcases hmem2 nd hnd with hr | hc
      · have := hheadmin nd (List.mem_cons_of_mem _ hr)
        omega
      · rw [hchd nd hc]
        omega
    · rw [hlkne kk hne] at hdl
      have hold := hinv.edLe kk d hdl
      rcases hmem2 nd hnd with hr | hc
      · exact hold nd (List.mem_cons_of_mem _ hr)
      · have := hold node (List.mem_cons_self _ _)
        rw [hchd nd hc]
        omega
  · intro acts cst hrep
    obtain ⟨i, qi, ci, hi, hrepi, nd, hnd, hq, hdep⟩ :=
      hinv.cover acts cst hrep
    rcases List.mem_cons.mp hnd with heqn | hnd2
    · rw [heqn] at hq hdep
      have hqk : ((qi, goal) : Pos × Pos) = skey node.state := by
        rw [hkey, hq]
      have hlk : alookup (qi, goal)
          ((skey node.state, node.depth) :: ed) = some node.depth := by
        rw [hqk]
        exact hlk0
      exact bfs_climb hwf hexGoal' hedMem' hedClosed'
        (acts.length - i) i acts cst qi ci node.depth (by omega) hi hrep
        hrepi hlk hdep
    · refine ⟨i, qi, ci, hi, hrepi, nd, ?_, hq, hdep⟩
      rw [hf2]
      exact List.mem_append_left _ hnd2

theorem bfsLoop_minimal {g : Grid} {start goal : Pos} (hwf : WFgrid g) :
    ∀ (fuel : Nat) (frontier : List Node) (explored : List (Pos × Pos))
      (ed : List ((Pos × Pos) × Nat)) (nodes : Nat),
      BFSInv g start goal frontier explored ed →
      ∀ {p : List String} {c n : Nat},
        bfsLoop g goal fuel frontier explored nodes =
          SearchResult.found p c n →
        ∀ acts w, ReachesWithCost g start goal acts w →
          p.length ≤ acts.length := by
  intro fuel
  induction fuel with
  | zero =>
    intro _ _ _ _ _ p c n hres
    cases hres
  | succ f ih =>
    intro frontier explored ed nodes hinv p c n hres
    cases frontier with
    | nil => cases hres
    | cons node rest =>
      simp only [bfsLoop] at hres
      split at hres
      · rename_i hskk
        exact ih rest explored ed (nodes + 1) (bfsinv_skip hwf hinv hskk)
          hres
      · rename_i hskk
        split at hres
        · rename_i pc hexp
          injection hres with hp hc hn
          obtain ⟨s2, a2, cc2, hmem, hgoal2, _, hp2, hc2⟩ :=
            bfsExpand_inr _ _ _ hexp
          have hdep := (hinv.entries node (List.mem_cons_self _ _)).1.2.2
          intro acts w hreach
          have hreach2 : replaySteps g acts start 0 = some (goal, w) :=
            hreach
          obtain ⟨i, qi, ci, hi, hrepi, nd, hnd, hq, hdepnd⟩ :=
            hinv.cover acts w hreach2
          have hqne : qi ≠ goal := by
            intro hh
            exact (hinv.entries nd hnd).2 (hq.trans hh)
          have hilt : i < acts.length := by
            rcases Nat.lt_or_ge i acts.length with hlt | hge
            · exact hlt
            · exfalso
              have hil : i = acts.length := by omega
              rw [hil, List.take_length] at hrepi
              rw [hreach2] at hrepi
              have := Option.some_inj.mp hrepi
              injection this with hh1 hh2
              exact hqne hh1.symm
          have hmin := bfs_pairwise_head hinv.sorted nd hnd
          have hplen : p.length = node.depth + 1 := by
            rw [← hp, hp2]
            simp [hdep]
          omega
        · rename_i f2 hexp
          exact ih _ _ _ _ (bfsinv_expand hwf hinv hskk hexp) hres

theorem bfsinv_initial (g : Grid) (start goal : Pos) (h0 : Nat)
    (hne : start ≠ goal) :
    BFSInv g start goal [mkStartNode start goal h0] [] [] := by
  refine ⟨?_, ?_, ?_, ?_, ?_, ?_, ?_, ?_, ?_⟩
  · intro nd hnd
    rcases List.mem_singleton.mp hnd with rfl
    exact ⟨nodeOK_start g start goal h0, hne⟩
  · exact List.pairwise_singleton _ _
  · intro n1 h1 n2 h2
    rcases List.mem_singleton.mp h1 with rfl
    rcases List.mem_singleton.mp h2 with rfl
    omega
  · intro kk hkk
    exact absurd hkk (List.not_mem_nil _)
  · intro kk hkk
    exact absurd hkk (List.not_mem_nil _)
  · intro kk d hdl
    exact Option.noConfusion hdl
  · intro kk d hdl
    exact Option.noConfusion hdl
  · intro kk d hdl
    exact Option.noConfusion hdl
  · intro acts cst hrep
    exact ⟨0, start, 0, Nat.zero_le _, rfl, mkStartNode start goal h0,
      List.mem_singleton.mpr rfl, rfl, Nat.le_refl 0⟩

theorem breadth_first_minimal {g : Grid} {start goal : Pos}
    (hwf : WFgrid g) {h0 fuel : Nat} {p : List String} {c n : Nat}
    (hres : breadth_first_search g goal (mkStartNode start goal h0) fuel =
      SearchResult.found p c n) :
    ∀ acts w, ReachesWithCost g start goal acts w →
      p.length ≤ acts.length := by
  unfold breadth_first_search at hres
  split at hres
  · injection hres with h1 h2 h3
    subst h1
    intro acts w _
    exact Nat.zero_le _
  · rename_i hg
    have hne : start ≠ goal := hg
    exact bfsLoop_minimal hwf fuel _ _ [] 0
      (bfsinv_initial g start goal h0 hne) hres

theorem greedy_search_sound {g : Grid} {start goal : Pos}
    {h0 hnum fuel : Nat} {p : List String} {c n : Nat}
    (hres : greedy_search g goal (mkStartNode start goal h0) hnum fuel =
      SearchResult.found p c n) :
    ReachesWithCost g start goal p c := by
  unfold greedy_search at hres
  split at hres
  · rename_i hg
    injection hres with h1 h2 h3
    subst h1
    subst h2
    show replaySteps g [] start 0 = some (goal, 0)
    rw [show goal = start from hg.symm]
    rfl
  · exact greedyLoop_sound fuel _ _ 0
      (fun e he => by
        rcases List.mem_singleton.mp he with rfl
        exact nodeOK_start g start goal h0) hres

theorem solve_sound {g : Grid} {start goal : Pos} {strategy : String}
    {fuel : Nat} {p : List String} {c n : Nat}
    (hres : solve g start goal strategy fuel =
      some (SearchResult.found p c n)) :
    ReachesWithCost g start goal p c := by
  simp only [solve] at hres
  set hh := if strategy.startsWith "GR" || strategy.startsWith "AS" then
    manhattan start goal else 0 with hhdef
  split_ifs at hres with h1 h2 h3 h4 h5 h6
  · exact breadth_first_sound (Option.some_inj.mp hres)
  · exact depth_first_sound (Option.some_inj.mp hres)
  · exact iterative_deepening_sound (Option.some_inj.mp hres)
  · exact uniform_cost_sound (Option.some_inj.mp hres)
  · cases hk : hnumOf strategy with
    | none =>
      rw [hk] at hres
      cases hres
    | some k =>
      rw [hk] at hres
      exact greedy_search_sound (Option.some_inj.mp hres)
  · cases hk : hnumOf strategy with
    | none =>
      rw [hk] at hres
      cases hres
    | some k =>
      rw [hk] at hres
      exact a_star_sound (Option.some_inj.mp hres)

/-- C5: the breadth-first goal test runs at child-generation time: when an
expansion returns a result immediately, it is the path of a goal child of
the expanded node, and when an expansion continues, every node newly
pushed to the FIFO frontier is a non-goal state; moreover, on a
well-formed grid, whenever breadth-first search succeeds, the length of
its returned action sequence is at most the length of the action sequence
returned by any strategy (dispatched through solve) that also succeeds on
the same (store, customer) pair. -/
theorem c5_bfs_goal_at_generation_min_actions (g : Grid) (start goal : Pos)
    (h0 fuel fuel2 : Nat) (hwf : WFgrid g)
    (p : List String) (c n : Nat)
    (hbf : breadth_first_search g goal (mkStartNode start goal h0) fuel =
      SearchResult.found p c n) :
    (∀ (node : Node) (succs : List (DeliveryState × String × Nat))
      (frontier : List Node) (explored : List (Pos × Pos))
      (pc : List String × Nat),
      bfsExpand g goal node succs frontier explored = Sum.inr pc →
      ∃ s2 a cc, (s2, a, cc) ∈ succs ∧ s2.current_pos = goal ∧
        pc.1 = node.path ++ [a] ∧ pc.2 = node.path_cost + cc) ∧
    (∀ (node : Node) (succs : List (DeliveryState × String × Nat))
      (frontier : List Node) (explored : List (Pos × Pos))
      (frontier2 : List Node),
      bfsExpand g goal node succs frontier explored = Sum.inl frontier2 →
      ∀ nd ∈ frontier2, nd ∈ frontier ∨ nd.state.current_pos ≠ goal) ∧
    (∀ strategy p2 c2 n2,
      solve g start goal strategy fuel2 =
        some (SearchResult.found p2 c2 n2) →
      p.length ≤ p2.length) := by
  refine ⟨?_, ?_, ?_⟩
  · intro node succs frontier explored pc hexp
    obtain ⟨s2, a2, cc2, hm, hg2, _, hp2, hc2⟩ := bfsExpand_inr _ _ _ hexp
    exact ⟨s2, a2, cc2, hm, hg2, hp2, hc2⟩
  · intro node succs frontier explored frontier2 hexp nd hnd
    rcases bfsExpand_inl _ _ _ hexp nd hnd with
      hin | ⟨s2, a2, cc2, _, hnd2, hg2, _⟩
    · exact Or.inl hin
    · right
      rw [hnd2]
      exact hg2
  · intro strategy p2 c2 n2 hsolve
    exact breadth_first_minimal hwf hbf p2 c2 (solve_sound hsolve)

/-- C5 witness: on the 2 x 1 grid with one open edge, BF finds ["right"]
(one action), and the theorem instantiates at that run. -/
theorem c5_witness :
    WFgrid gridTwo ∧
    breadth_first_search gridTwo ⟨1, 0⟩ (mkStartNode ⟨0, 0⟩ ⟨1, 0⟩ 0)
      (searchFuel gridTwo ⟨0, 0⟩ ⟨1, 0⟩) =
      SearchResult.found ["right"] 1 1 ∧
    ((∀ (node : Node) (succs : List (DeliveryState × String × Nat))
      (frontier : List Node) (explored : List (Pos × Pos))
      (pc : List String × Nat),
      bfsExpand gridTwo ⟨1, 0⟩ node succs frontier explored = Sum.inr pc →
      ∃ s2 a cc, (s2, a, cc) ∈ succs ∧ s2.current_pos = ⟨1, 0⟩ ∧
        pc.1 = node.path ++ [a] ∧ pc.2 = node.path_cost + cc) ∧
    (∀ (node : Node) (succs : List (DeliveryState × String × Nat))
      (frontier : List Node) (explored : List (Pos × Pos))
      (frontier2 : List Node),
      bfsExpand gridTwo ⟨1, 0⟩ node succs frontier explored =
        Sum.inl frontier2 →
      ∀ nd ∈ frontier2, nd ∈ frontier ∨ nd.state.current_pos ≠ ⟨1, 0⟩) ∧
    (∀ strategy p2 c2 n2,
      solve gridTwo ⟨0, 0⟩ ⟨1, 0⟩ strategy
          (searchFuel gridTwo ⟨0, 0⟩ ⟨1, 0⟩) =
        some (SearchResult.found p2 c2 n2) →
      (["right"] : List String).length ≤ p2.length)) :=
  ⟨by decide, by decide,
    c5_bfs_goal_at_generation_min_actions gridTwo ⟨0, 0⟩ ⟨1, 0⟩ 0
      (searchFuel gridTwo ⟨0, 0⟩ ⟨1, 0⟩)
      (searchFuel gridTwo ⟨0, 0⟩ ⟨1, 0⟩) (by decide) ["right"] 1 1
      (by decide)⟩
